import Mathlib

/-!
Verification of goose, a database migration tool

A shallow embedding of the parts of the migration tool that the specification
talks about: the skip detector `Check` and the status line of
`status.go`, the version allocator `nextVersion` of `create.go`, and the
positional argument handling of `cmd/goose/main.go`.

Conventions of the embedding.

* Go `int64` values are `Int`; the one place where arithmetic is performed on
  them (`last+1` in `nextVersion`) wraps explicitly with `wrapInt64`.
* Go strings are `String` at the interface of the command line and
  `List Char` where they are taken apart character by character.
* A Go `error` result is `Option Error` (`none` is `nil`); a pair
  `(value, error)` is `Except Error value`.
* The `for` loop of `Check` whose termination is not structural carries a fuel
  argument and returns `none` when the fuel runs out; the theorems show that
  `migrations.length + 1` is always enough.
-/

namespace Goose

/-! ## Data model -/

/-- Error values that the embedded code can observe. `ErrNoNextVersion` is the
sentinel of `Migrations.Next`; `errorString` stands for every other error
(database errors, `fmt.Errorf` results). -/
inductive Error where
  | ErrNoNextVersion
  | errorString (msg : String)
  deriving DecidableEq

/-- Modelled from the spec: the `Migration` struct (a MigrationUnit) is declared
outside the files at hand; only the two fields that `status.go` reads are kept. -/
structure Migration where
  Version : Int
  Source : String
  deriving DecidableEq

/-- Modelled from the spec: `Migrations` is the slice type of the collected
sequence. -/
abbrev Migrations := List Migration

/-- Modelled from the spec: `Migrations.Next(current)` is declared outside the
files at hand. It returns the first unit whose version is strictly greater than
`current`, and fails with `ErrNoNextVersion` when there is none. -/
def Migrations.Next (ms : Migrations) (current : Int) : Except Error Migration :=
  match ms.find? (fun m => decide (current < m.Version)) with
  | some m => .ok m
  | none => .error .ErrNoNextVersion

/-- One row of the ledger table `goose_db_version`. Timestamps are instants on
an integer time line; every column holds a value (no NULL). -/
structure LedgerRow where
  id : Int
  version_id : Int
  tstamp : Int
  is_applied : Bool
  deriving DecidableEq

/-! ## Decimal rendering (strconv, fmt) -/

/-- The character of one decimal digit: `'0' + d`. -/
def digitChar (d : Nat) : Char := Char.ofNat (48 + d)

/-- Decimal digits of an unsigned number, most significant first. The first
argument bounds the number of digits produced. -/
def decimalDigits : Nat → Nat → List Char
  | 0, _ => []
  | fuel + 1, u =>
    if u < 10 then [digitChar u] else decimalDigits fuel (u / 10) ++ [digitChar (u % 10)]

/-- Decimal rendering of an unsigned number (`u + 1` digits are always enough). -/
def formatUint (u : Nat) : List Char := decimalDigits (u + 1) u

/-- Model of `strconv.FormatInt(i, 10)`: a minus sign for a negative number, then the
decimal digits of its magnitude. -/
def FormatInt (i : Int) : List Char :=
  if i < 0 then '-' :: formatUint i.natAbs else formatUint i.natAbs

/-- Zero padding of a digit string to at least `prec` digits. -/
def zeroPad (prec : Nat) (digits : List Char) : List Char :=
  List.replicate (prec - digits.length) '0' ++ digits

/-- Model of `fmt.Sprintf("%05v", i)` for an `int64`: the zero flag with width 5 turns into
a precision of 5 digits, or of 4 digits when a sign has to be written; the sign
comes before the padding zeros. -/
def Sprintf05v (i : Int) : List Char :=
  if i < 0 then '-' :: zeroPad 4 (formatUint i.natAbs) else zeroPad 5 (formatUint i.natAbs)

/-- Two's complement wrap-around of `int64` arithmetic. -/
def wrapInt64 (i : Int) : Int := (i + 2 ^ 63) % 2 ^ 64 - 2 ^ 63

/-! ## status.go: Check -/

/-- The inner loop of `Check` (status.go, lines 90-94):
`for err == nil && migration.Version < version { ... }`.
The last argument is the pair `(migration, err)` held on entry to the loop test.
The result is the state on exit: `skipped`, `current` and `(migration, err)`. -/
def skipLoop (ms : Migrations) (version : Int) :
    Nat → List Int → Int → Except Error Migration →
      Option (List Int × Int × Except Error Migration)
  | _, skipped, current, .error e => some (skipped, current, .error e)
  | 0, _, _, .ok _ => none
  | fuel + 1, skipped, current, .ok migration =>
    if migration.Version < version then
      skipLoop ms version fuel (skipped ++ [migration.Version]) migration.Version
        (ms.Next migration.Version)
    else
      some (skipped, current, .ok migration)

/-- The outer loop of `Check` (status.go, lines 83-104): `for rows.Next()` with
its `rows.Scan`. Each element of the row list is the outcome of one
`rows.Scan(&version)`. The result is the final `(skipped, current)`, or the
error that the loop returns. -/
def scanRows (ms : Migrations) (fuel : Nat) :
    List (Except Error Int) → List Int → Int → Option (Except Error (List Int × Int))
  | [], skipped, current => some (.ok (skipped, current))
  | .error e :: _, _, _ => some (.error e)
  | .ok version :: rows, skipped, current =>
    match skipLoop ms version fuel skipped current (ms.Next current) with
    | none => none
    | some (skipped1, current1, .ok migration) =>
      scanRows ms fuel rows skipped1
        (if migration.Version = version then migration.Version else current1)
    | some (skipped1, current1, .error .ErrNoNextVersion) =>
      scanRows ms fuel rows skipped1 current1
    | some (_, _, .error e) => some (.error e)

/-- The elements of a slice as `%v` lays them out: one space between
neighbours. -/
def joinSpace : List (List Char) → List Char
  | [] => []
  | [s] => s
  | s :: t :: rest => s ++ ' ' :: joinSpace (t :: rest)

/-- Rendering of a `[]int64` by `%v`: the elements in decimal, separated by one
space, between square brackets. -/
def fmtInt64Slice (xs : List Int) : List Char :=
  '[' :: joinSpace (xs.map FormatInt) ++ [']']

/-- The error built on status.go line 107,
`fmt.Errorf("migrations %v has been skipped", skipped)`. -/
def skippedError (skipped : List Int) : Error :=
  .errorString (String.mk
    ("migrations ".toList ++ fmtInt64Slice skipped ++ " has been skipped".toList))

/-- Model of `Check` (status.go, lines 54-111). `minVersion` is a constant declared
outside the files at hand and is a parameter. The three `Except` arguments are
the outcomes of `CollectMigrations`, of `EnsureDBVersion` and of `db.Query`
(whose rows are the outcomes of the successive `rows.Scan` calls).
The outer `Option` is `none` only when the fuel runs out. -/
def Check (minVersion : Int) (fuel : Nat) (collected : Except Error Migrations)
    (ensured : Except Error Int) (queried : Except Error (List (Except Error Int))) :
    Option (Option Error) :=
  match collected with
  | .error e => some (some e)
  | .ok migrations =>
    match ensured with
    | .error e => some (some e)
    | .ok _ =>
      match queried with
      | .error e => some (some e)
      | .ok rows =>
        match scanRows migrations fuel rows [] minVersion with
        | none => none
        | some (.error e) => some (some e)
        | some (.ok (skipped, _)) =>
          if skipped.length > 0 then some (some (skippedError skipped)) else some none

/-! ## status.go: the ledger query of Check -/

/-- The `LEFT JOIN ... AS newer ON newer.version_id = goose_db_version.version_id
AND newer.tstamp > goose_db_version.tstamp` of the query of `Check`: every row
is paired with each of its matches, or once with the all-NULL row (`none`) when
it has no match. -/
def leftJoinNewer (table : List LedgerRow) : List (LedgerRow × Option LedgerRow) :=
  table.flatMap fun g =>
    match table.filter (fun newer =>
        decide (newer.version_id = g.version_id) && decide (newer.tstamp > g.tstamp)) with
    | [] => [(g, none)]
    | found => found.map fun newer => (g, some newer)

/-- The `WHERE` clause of the query of `Check`:
`version_id > minVersion AND newer.id IS NULL AND is_applied`. -/
def checkWhere (minVersion : Int) (p : LedgerRow × Option LedgerRow) : Bool :=
  decide (p.1.version_id > minVersion) && (p.2.map LedgerRow.id).isNone && p.1.is_applied

/-- The query of `Check` (status.go, lines 66-75) evaluated on a ledger:
join, filter, project on `version_id`, order by it. -/
def checkQuery (minVersion : Int) (table : List LedgerRow) : List Int :=
  (((leftJoinNewer table).filter (checkWhere minVersion)).map
    fun p => p.1.version_id).insertionSort (fun a b => a ≤ b)

/-! ## status.go: printMigrationStatus -/

/-- What `db.QueryRow(q).Scan(&row.TStamp, &row.IsApplied)` leaves behind: the
two scanned columns and a nil error, `sql.ErrNoRows`, or another error. -/
inductive ScanOutcome where
  | scanned (tstamp : Int) (is_applied : Bool)
  | ErrNoRows
  | failed (e : Error)
  deriving DecidableEq

/-- The `WHERE version_id=%d` of the query of `printMigrationStatus`
(status.go, line 35): the rows of the version, in table order. -/
def statusWhere (table : List LedgerRow) (version : Int) : List LedgerRow :=
  table.filter fun r => decide (r.version_id = version)

/-- The `ORDER BY tstamp DESC` of the query of `printMigrationStatus`: `ordered`
is an arrangement of `rows` in which the timestamps never increase. SQL leaves
the order among rows with equal sort keys to the database, so every such
arrangement is a possible result. -/
def orderedByTstampDesc (rows ordered : List LedgerRow) : Prop :=
  ordered.Perm rows ∧ ordered.Sorted fun a b => a.tstamp ≥ b.tstamp

/-- The `LIMIT 1` of the query and the `Scan` of its columns `tstamp, is_applied`:
the first row of the ordered result, or `sql.ErrNoRows` when it is empty. -/
def scanFirst (ordered : List LedgerRow) : ScanOutcome :=
  match ordered.head? with
  | none => .ErrNoRows
  | some r => .scanned r.tstamp r.is_applied

/-- The answers of an error-free database to
`SELECT tstamp, is_applied FROM goose_db_version WHERE version_id=%d ORDER BY tstamp DESC LIMIT 1`
(status.go, line 35) on a ledger. -/
def statusQueryAnswer (table : List LedgerRow) (version : Int) (scan : ScanOutcome) : Prop :=
  ∃ ordered, orderedByTstampDesc (statusWhere table version) ordered ∧ scan = scanFirst ordered

/-- The applied-at column of a status line: the word `Pending`, or the timestamp
rendered by `Format(time.ANSIC)` (kept symbolic). -/
inductive AppliedAt where
  | Pending
  | formatted (tstamp : Int)
  deriving DecidableEq

/-- The `MigrationRecord` that `printMigrationStatus` scans into; a declared
variable starts at its zero value. -/
structure MigrationRecord where
  TStamp : Int := 0
  IsApplied : Bool := false
  deriving DecidableEq

/-- Model of `printMigrationStatus` (status.go, lines 33-51), given the outcome of its
query. The result is the pair `(appliedAt, script)` that is logged, or `none`
when `log.Fatal` ends the process. -/
def printMigrationStatus (scan : ScanOutcome) (script : String) :
    Option (AppliedAt × String) :=
  let row : MigrationRecord := match scan with
    | .scanned tstamp is_applied => { TStamp := tstamp, IsApplied := is_applied }
    | _ => {}
  match scan with
  | .failed _ => none
  | _ =>
    let appliedAt := if row.IsApplied then AppliedAt.formatted row.TStamp else AppliedAt.Pending
    some (appliedAt, script)

/-! ## create.go: nextVersion -/

/-- Model of `isDigit(s, i)` of package `time`: the index is in range and holds a decimal
digit. -/
def isDigit (s : List Char) (i : Nat) : Bool :=
  match s[i]? with
  | none => false
  | some c => decide (48 ≤ c.toNat) && decide (c.toNat ≤ 57)

/-- Value of a digit character, `c - '0'`. -/
def digitVal (c : Char) : Nat := c.toNat - 48

/-- Model of `getnum(s, fixed)` of package `time`: a one- or two-digit number at the head
of `s`; with `fixed` two digits are required. -/
def getnum (s : List Char) ( fixed : Bool) : Option (Nat × List Char) :=
  match s with
  | [] => none
  | c0 :: rest =>
    if !isDigit s 0 then none
    else if !isDigit s 1 then
      if fixed then none else some (digitVal c0, rest)
    else
      match rest with
      | [] => none
      | c1 :: rest1 => some (digitVal c0 * 10 + digitVal c1, rest1)

/-- Model of `leadingInt` of package `time`: consumes the leading digits. -/
def leadingInt : List Char → Nat → Nat × List Char
  | [], x => (x, [])
  | c :: s, x =>
    if decide (48 ≤ c.toNat) && decide (c.toNat ≤ 57) then leadingInt s (x * 10 + digitVal c)
    else (x, c :: s)

/-- Model of `atoi` of package `time`: an optional sign and digits up to the end. -/
def atoi (s : List Char) : Option Int :=
  let neg := match s with
    | c :: _ => c == '-'
    | [] => false
  let s1 := match s with
    | c :: t => if c == '-' || c == '+' then t else s
    | [] => s
  match leadingInt s1 0 with
  | (q, []) => some (if neg then -(q : Int) else q)
  | _ => none

/-- Model of `isLeap` of package `time`. -/
def isLeap (year : Int) : Bool :=
  decide (year % 4 = 0) && (decide (year % 100 ≠ 0) || decide (year % 400 = 0))

/-- Model of `daysIn` of package `time`. -/
def daysIn (month : Nat) (year : Int) : Nat :=
  if month = 2 ∧ isLeap year = true then 29
  else match month with
    | 1 => 31 | 2 => 28 | 3 => 31 | 4 => 30 | 5 => 31 | 6 => 30
    | 7 => 31 | 8 => 31 | 9 => 30 | 10 => 31 | 11 => 30 | 12 => 31
    | _ => 0

/-- Model of `commaOrPeriod` of package `time`. -/
def commaOrPeriod (c : Char) : Bool := c == '.' || c == ','

/-- The civil fields of a time. -/
structure Civil where
  year : Int
  month : Nat
  day : Nat
  hour : Nat
  minute : Nat
  second : Nat
  deriving DecidableEq

/-- Model of `time.Parse(versionFormatDate, value)` where `versionFormatDate` is
`"20060102150405"` (create.go, line 14). The layout splits into the chunks
`2006` (four-digit year), `01` (two-digit month), `02` (two-digit day), `15`
(hour, one or two digits), `04` (two-digit minute), `05` (two-digit second);
a fractional second may follow the seconds in the value, nothing else may,
and the day is validated against the month at the end. `none` is a parse
error. -/
def timeParse (value : List Char) : Option Civil :=
  -- stdLongYear
  if value.length < 4 || !isDigit value 0 then none else
  match atoi (value.take 4) with
  | none => none
  | some year =>
  -- stdZeroMonth
  match getnum (value.drop 4) true with
  | none => none
  | some (month, value1) =>
  if month ≤ 0 || 12 < month then none else
  -- stdZeroDay
  match getnum value1 true with
  | none => none
  | some (day, value2) =>
  -- stdHour
  match getnum value2 false with
  | none => none
  | some (hour, value3) =>
  if 24 ≤ hour then none else
  -- stdZeroMinute
  match getnum value3 true with
  | none => none
  | some (minute, value4) =>
  if 60 ≤ minute then none else
  -- stdZeroSecond
  match getnum value4 true with
  | none => none
  | some (second, value5) =>
  if 60 ≤ second then none else
  -- a fractional second in the value that the layout does not name
  let value6 :=
    if decide (value5.length ≥ 2) && (value5.head?.map commaOrPeriod).getD false
        && isDigit value5 1 then
      (value5.drop 2).dropWhile fun c => decide (48 ≤ c.toNat) && decide (c.toNat ≤ 57)
    else value5
  -- end of layout: extra text
  if value6.length ≠ 0 then none else
  -- day of month
  if day < 1 || day > daysIn month year then none else
  some { year := year, month := month, day := day, hour := hour, minute := minute,
         second := second }

/-- Model of `appendInt(b, x, width)` of package `time`: a minus sign for a negative
number, then its magnitude zero-padded to `width` digits. -/
def appendInt (x : Int) (width : Nat) : List Char :=
  (if x < 0 then ['-'] else []) ++ zeroPad width (formatUint x.natAbs)

/-- Model of `t.Format(versionFormatDate)`: the six fields in the widths of the layout. -/
def formatVersionDate (t : Civil) : List Char :=
  appendInt t.year 4 ++ appendInt t.month 2 ++ appendInt t.day 2 ++ appendInt t.hour 2 ++
    appendInt t.minute 2 ++ appendInt t.second 2

/-- Model of `nextVersion` (create.go, lines 47-53). The wall clock `time.Now()` is the
explicit argument `now`. -/
def nextVersion (now : Civil) (last : Int) : String :=
  match timeParse (FormatInt last) with
  | some _ => String.mk (formatVersionDate now)
  | none => String.mk (Sprintf05v (wrapInt64 (last + 1)))

/-! ## cmd/goose/main.go: main -/

/-- How a run of `main` ends, as far as the argument handling decides it. -/
inductive Outcome where
  /-- The call `goose.Run("create", nil, *dir, args[1:]...)` (line 42). -/
  | runCreate (arguments : List String)
  /-- The call `flags.Usage()` followed by `return` (lines 60 and 65). -/
  | usage
  /-- The fatal message that the driver is not supported (line 86). -/
  | driverNotSupported (driver : String)
  /-- The fatal message that the connection string is not supported (line 91). -/
  | dbstringNotSupported (dbstring : String)
  /-- The calls `goose.SetDialect(dialect)`, `sql.Open(driver, dbstring)` and
  `goose.Run(command, db, *dir, arguments...)` (lines 82, 99 and 109); what these
  calls do, and whether they fail, is outside the embedding. -/
  | openAndRun (dialect driver dbstring command : String) (arguments : List String)
  /-- A run-time panic: index out of range. -/
  | indexOutOfRange (index : Int) (len : Nat)
  deriving DecidableEq

/-- The index expression `args[i]`, which panics outside the bounds. -/
def index (args : List String) (i : Int) : Except Outcome String :=
  if i < 0 then .error (.indexOutOfRange i args.length)
  else match args[i.toNat]? with
    | some a => .ok a
    | none => .error (.indexOutOfRange i args.length)

/-- The value of `needParams` after lines 51-57, for the pair returned by
`loadConfig`. -/
def needParams (driver dbstring : String) : Int :=
  let n : Int := 3
  let n := if driver ≠ "" then n - 1 else n
  let n := if dbstring ≠ "" then n - 1 else n
  n

/-- The `switch driver` of lines 80-87: the drivers for which `goose.SetDialect`
is called. -/
def driverSupported (driver : String) : Bool :=
  driver == "postgres" || driver == "mysql" || driver == "sqlite3" || driver == "redshift"

/-- Lines 48-111 of `main`: everything after the `create` shortcut. The pair
`(driver0, dbstring0)` is what `loadConfig()` returned. An `error` result is a
panic or an early exit, an `ok` result the regular end. -/
def mainConfigured (args : List String) (driver0 dbstring0 : String) :
    Except Outcome Outcome :=
  let needed := needParams driver0 dbstring0
  -- lines 59-62
  if (args.length : Int) < needed then .error .usage else
  -- lines 64-67
  match index args 0 with
  | .error panic => .error panic
  | .ok a0 =>
  if a0 == "-h" || a0 == "--help" then .error .usage else
  -- lines 69-71
  match (if driver0 == "" then index args 0 else .ok driver0) with
  | .error panic => .error panic
  | .ok driver =>
  -- lines 72-76
  match (if dbstring0 == "" && driver == "" then index args 1
         else if dbstring0 == "" then index args 0 else .ok dbstring0) with
  | .error panic => .error panic
  | .ok dbstring =>
  -- line 77
  match index args (needed - 1) with
  | .error panic => .error panic
  | .ok command =>
  -- lines 80-87
  if !driverSupported driver then .error (.driverNotSupported driver) else
  -- lines 89-93
  if dbstring == "" then .error (.dbstringNotSupported dbstring) else
  -- lines 95-97
  let driver1 := if driver == "redshift" then "postgres" else driver
  -- lines 104-107
  let arguments : List String := if args.length > 3 then [] ++ args.drop 3 else []
  -- lines 99 and 109
  .ok (.openAndRun driver driver1 dbstring command arguments)

/-- Model of `main` (cmd/goose/main.go, lines 35-112) from the positional arguments
`flags.Args()` on. `config` is the pair `(driver, dsn)` returned by
`loadConfig()`. -/
def main (args : List String) (config : String × String) : Outcome :=
  let create : Except Outcome Bool :=
    if args.length > 1 then (index args 0).map (fun a0 => a0 == "create") else .ok false
  match create with
  | .error panic => panic
  | .ok true => .runCreate (args.drop 1)
  | .ok false =>
    match mainConfigured args config.1 config.2 with
    | .ok o => o
    | .error o => o

/-! ## Reference definitions, in the words of the specification -/

/-- Strictly ascending by version. -/
abbrev Ascending (ms : Migrations) : Prop := ms.Pairwise fun a b => a.Version < b.Version

/-- The skipped list in the words of the specification: the versions of the
sequence, in the order of the sequence, that do not occur in the applied list
and are strictly smaller than the largest applied version. -/
def skippedVersions (ms : Migrations) (applied : List Int) : List Int :=
  (ms.map fun m => m.Version).filter fun v =>
    decide (v ∉ applied) && decide ((v : WithBot Int) < applied.maximum)

/-- The outer loop of `Check` in the words of the specification: when the cursor
has no further unit, stop scanning ledger entries entirely. -/
def scanRowsStop (ms : Migrations) (fuel : Nat) :
    List (Except Error Int) → List Int → Int → Option (Except Error (List Int × Int))
  | [], skipped, current => some (.ok (skipped, current))
  | .error e :: _, _, _ => some (.error e)
  | .ok version :: rows, skipped, current =>
    match skipLoop ms version fuel skipped current (ms.Next current) with
    | none => none
    | some (skipped1, current1, .ok migration) =>
      scanRowsStop ms fuel rows skipped1
        (if migration.Version = version then migration.Version else current1)
    | some (skipped1, current1, .error .ErrNoNextVersion) => some (.ok (skipped1, current1))
    | some (_, _, .error e) => some (.error e)

/-- The latest-row rule in the words of the specification: `r` is the latest row
of its version by timestamp, ties on the timestamp broken by the larger `id`. -/
def isLatestRow (table : List LedgerRow) (r : LedgerRow) : Prop :=
  r ∈ table ∧ ∀ r1 ∈ table, r1.version_id = r.version_id →
    r1.tstamp < r.tstamp ∨ (r1.tstamp = r.tstamp ∧ r1.id ≤ r.id)

instance (table : List LedgerRow) (r : LedgerRow) : Decidable (isLatestRow table r) := by
  unfold isLatestRow; infer_instance

/-- The latest row of version `v` exists and has `is_applied = true`. -/
def latestApplied (table : List LedgerRow) (v : Int) : Prop :=
  ∃ r ∈ table, r.version_id = v ∧ isLatestRow table r ∧ r.is_applied = true

instance (table : List LedgerRow) (v : Int) : Decidable (latestApplied table v) := by
  unfold latestApplied; infer_instance

/-- Leap years of the Gregorian calendar. -/
def leapYear (year : Nat) : Bool :=
  year % 400 == 0 || (year % 4 == 0 && year % 100 != 0)

/-- Number of days of a month of the Gregorian calendar. -/
def daysInMonth (year month : Nat) : Nat :=
  if month = 2 then (if leapYear year then 29 else 28)
  else if month = 4 ∨ month = 6 ∨ month = 9 ∨ month = 11 then 30
  else if 1 ≤ month ∧ month ≤ 12 then 31
  else 0

/-- A version is a date-time stamp when its decimal rendering is exactly 14
digits `YYYYMMDDHHMMSS` that form a valid calendar date and time of day. -/
def isDateStamp (last : Int) : Prop :=
  10000000000000 ≤ last ∧ last < 100000000000000 ∧
  1 ≤ last.toNat / 100000000 % 100 ∧ last.toNat / 100000000 % 100 ≤ 12 ∧
  1 ≤ last.toNat / 1000000 % 100 ∧
  last.toNat / 1000000 % 100 ≤
    daysInMonth (last.toNat / 10000000000) (last.toNat / 100000000 % 100) ∧
  last.toNat / 10000 % 100 ≤ 23 ∧ last.toNat / 100 % 100 ≤ 59 ∧ last.toNat % 100 ≤ 59

instance (last : Int) : Decidable (isDateStamp last) := by
  unfold isDateStamp; infer_instance

/-- A digit string left-padded with zeros to a width. -/
def leftPadZeros (width : Nat) (s : List Char) : List Char :=
  List.replicate (width - s.length) '0' ++ s

/-- Value of a non-empty string of decimal digits. -/
def parseDigits (s : List Char) : Option Nat :=
  if s ≠ [] ∧ s.all (fun c => decide (48 ≤ c.toNat) && decide (c.toNat ≤ 57)) = true then
    some (s.foldl (fun acc c => acc * 10 + (c.toNat - 48)) 0)
  else none

/-- Parsing a string as a decimal integer: an optional sign, then digits. -/
def parseInteger (s : List Char) : Option Int :=
  match s with
  | [] => none
  | c :: t =>
    if c = '-' then Option.map (fun (n : Nat) => -(n : Int)) (parseDigits t)
    else if c = '+' then Option.map (fun (n : Nat) => (n : Int)) (parseDigits t)
    else Option.map (fun (n : Nat) => (n : Int)) (parseDigits (c :: t))

/-- The fields of a space-separated line. -/
def splitOnSpace : List Char → List (List Char)
  | [] => [[]]
  | c :: s =>
    if c = ' ' then [] :: splitOnSpace s
    else match splitOnSpace s with
      | [] => [[c]]
      | w :: ws => (c :: w) :: ws

/-- Every field read as a decimal integer. -/
def parseIntegers : List (List Char) → Option (List Int)
  | [] => some []
  | w :: ws =>
    match parseInteger w, parseIntegers ws with
    | some i, some rest => some (i :: rest)
    | _, _ => none

/-- Reading back a list of versions from the text between the square brackets of
a message: nothing for the empty list, otherwise decimal integers separated by
one space. -/
def parseVersionList (body : List Char) : Option (List Int) :=
  if body = [] then some [] else parseIntegers (splitOnSpace body)

/-- The status criterion in the words of the specification, on the ledger alone:
the ledger has no row for the version, or a row of the version with the greatest
`tstamp` has `is_applied = false`. -/
def pendingByLedger (table : List LedgerRow) (version : Int) : Prop :=
  (∀ r ∈ table, r.version_id ≠ version) ∨
  ∃ r ∈ table, r.version_id = version ∧
    (∀ r1 ∈ table, r1.version_id = version → r1.tstamp ≤ r.tstamp) ∧ r.is_applied = false

instance (table : List LedgerRow) (version : Int) : Decidable (pendingByLedger table version) := by
  unfold pendingByLedger; infer_instance

/-- The rows of a version that share its greatest `tstamp` agree on `is_applied`;
in particular this holds when one row is strictly the newest. -/
def latestRowsAgree (table : List LedgerRow) (version : Int) : Prop :=
  ∀ r1 ∈ table, ∀ r2 ∈ table, r1.version_id = version → r2.version_id = version →
    (∀ r ∈ table, r.version_id = version → r.tstamp ≤ r1.tstamp) →
    (∀ r ∈ table, r.version_id = version → r.tstamp ≤ r2.tstamp) →
    r1.is_applied = r2.is_applied

instance (table : List LedgerRow) (version : Int) : Decidable (latestRowsAgree table version) := by
  unfold latestRowsAgree; infer_instance

/-- The number that the 14 digits `YYYYMMDDHHMMSS` of a civil time spell. -/
def stampValue (t : Civil) : Nat :=
  t.year.toNat * 10000000000 + t.month * 100000000 + t.day * 1000000 + t.hour * 10000 +
    t.minute * 100 + t.second

/-! ## Theorems: the skip detector -/

theorem Next_ok {ms : Migrations} {c : Int} {m : Migration} (hs : Ascending ms)
    (h : ms.Next c = .ok m) :
    m ∈ ms ∧ c < m.Version ∧ ∀ m1 ∈ ms, c < m1.Version → m.Version ≤ m1.Version := by
  unfold Migrations.Next at h
  cases hf : ms.find? (fun m => decide (c < m.Version)) with
  | none => simp [hf] at h
  | some m0 =>
    simp only [hf, Except.ok.injEq] at h
    subst h
    obtain ⟨hp, as, bs, rfl, has⟩ := List.find?_eq_some.1 hf
    have hp1 : c < m0.Version := by simpa using hp
    refine ⟨by simp, hp1, ?_⟩
    intro m1 hm1 hc
    rcases List.mem_append.1 hm1 with h1 | h1
    · have := has m1 h1
      simp at this
      omega
    · rcases List.mem_cons.1 h1 with h2 | h2
      · subst h2; exact le_refl _
      · have hs1 := (List.pairwise_append.1 hs).2.1
        exact le_of_lt ((List.pairwise_cons.1 hs1).1 m1 h2)

theorem Next_error {ms : Migrations} {c : Int} {e : Error} (h : ms.Next c = .error e) :
    e = .ErrNoNextVersion ∧ ∀ m ∈ ms, m.Version ≤ c := by
  unfold Migrations.Next at h
  cases hf : ms.find? (fun m => decide (c < m.Version)) with
  | some m0 => simp [hf] at h
  | none =>
    simp only [hf, Except.error.injEq] at h
    refine ⟨h.symm, ?_⟩
    intro m hm
    have := List.find?_eq_none.1 hf m hm
    simp at this
    exact this

theorem countP_lt_of_imp {α : Type} (p q : α → Bool) (l : List α)
    (himp : ∀ x ∈ l, p x = true → q x = true) (hex : ∃ x ∈ l, q x = true ∧ p x = false) :
    l.countP p < l.countP q := by
  induction l with
  | nil => simp at hex
  | cons a l ih =>
    obtain ⟨x, hx, hq, hp⟩ := hex
    have himp1 : ∀ x ∈ l, p x = true → q x = true := fun y hy => himp y (List.mem_cons_of_mem _ hy)
    have hle : l.countP p ≤ l.countP q := List.countP_mono_left himp1
    rcases List.mem_cons.1 hx with h1 | h1
    · subst h1
      simp [List.countP_cons, hq, hp]
      omega
    · have := ih himp1 ⟨x, h1, hq, hp⟩
      have ha := himp a (List.mem_cons_self _ _)
      simp only [List.countP_cons]
      by_cases hpa : p a = true
      · simp [hpa, ha hpa]; exact this
      · simp [hpa]; split <;> omega

theorem skipLoop_spec (ms : Migrations) (hs : Ascending ms) (v : Int) :
    ∀ (fuel : Nat) (skipped : List Int) (current : Int),
      ms.countP (fun m => decide (current < m.Version)) < fuel →
      ∃ added c1 r,
        skipLoop ms v fuel skipped current (ms.Next current) = some (skipped ++ added, c1, r) ∧
        r = ms.Next c1 ∧
        added.Sorted (· < ·) ∧
        (∀ x, x ∈ added ↔ (∃ m ∈ ms, m.Version = x) ∧ current < x ∧ x < v) ∧
        (∀ m ∈ ms, m.Version ≤ c1 ↔ m.Version ≤ current ∨ m.Version < v) ∧
        (c1 < v ∨ c1 = current) ∧
        (∀ m, r = .ok m → v ≤ m.Version) := by
  intro fuel
  induction fuel with
  | zero => intro _ _ h; omega
  | succ fuel ih =>
    intro skipped current hfuel
    cases hn : ms.Next current with
    | error e =>
      obtain ⟨_, hall⟩ := Next_error hn
      refine ⟨[], current, .error e, by simp [skipLoop], hn.symm, List.sorted_nil, ?_, ?_, Or.inr rfl, ?_⟩
      · intro x
        constructor
        · intro hx; simp at hx
        · rintro ⟨⟨m, hm, rfl⟩, h1, _⟩
          have := hall m hm
          omega
      · intro m hm
        have := hall m hm
        constructor
        · intro h; exact Or.inl h
        · intro _; exact this
      · intro m hm; simp at hm
    | ok m =>
      obtain ⟨hmem, hlt, hmin⟩ := Next_ok hs hn
      by_cases hv : m.Version < v
      · have hfuel1 : ms.countP (fun x => decide (m.Version < x.Version)) < fuel := by
          have := countP_lt_of_imp (fun x => decide (m.Version < x.Version))
            (fun x => decide (current < x.Version)) ms
            (by intro x _ hx; simp at hx ⊢; omega)
            ⟨m, hmem, by simpa using hlt, by simp⟩
          omega
        obtain ⟨added, c1, r, hrun, hr, hsorted, hadd, hc1, hc1v, hexit⟩ :=
          ih (skipped ++ [m.Version]) m.Version hfuel1
        refine ⟨m.Version :: added, c1, r, ?_, hr, ?_, ?_, ?_, ?_, hexit⟩
        · simp only [skipLoop, hv, if_true]
          rw [hrun]
          simp
        · refine List.sorted_cons.2 ⟨?_, hsorted⟩
          intro x hx
          exact ((hadd x).1 hx).2.1
        · intro x
          simp only [List.mem_cons, hadd]
          constructor
          · rintro (rfl | ⟨hx, h1, h2⟩)
            · exact ⟨⟨m, hmem, rfl⟩, hlt, hv⟩
            · exact ⟨hx, by omega, h2⟩
          · rintro ⟨⟨m1, hm1, rfl⟩, h1, h2⟩
            have := hmin m1 hm1 h1
            rcases eq_or_lt_of_le this with h3 | h3
            · exact Or.inl h3.symm
            · exact Or.inr ⟨⟨m1, hm1, rfl⟩, h3, h2⟩
        · intro m1 hm1
          rw [hc1 m1 hm1]
          constructor
          · rintro (h | h)
            · exact Or.inr (by omega)
            · exact Or.inr h
          · rintro (h | h)
            · exact Or.inl (by omega)
            · exact Or.inr h
        · rcases hc1v with h | h
          · exact Or.inl h
          · exact Or.inl (by omega)
      · refine ⟨[], current, .ok m, by simp [skipLoop, hv], hn.symm, List.sorted_nil, ?_, ?_,
          Or.inr rfl, ?_⟩
        · intro x
          constructor
          · intro hx; simp at hx
          · rintro ⟨⟨m1, hm1, rfl⟩, h1, h2⟩
            have := hmin m1 hm1 h1
            omega
        · intro m1 hm1
          constructor
          · intro h; exact Or.inl h
          · rintro (h | h)
            · exact h
            · by_contra hcon
              have := hmin m1 hm1 (by omega)
              omega
        · intro m1 hm1
          simp only [Except.ok.injEq] at hm1
          subst hm1
          omega

theorem scanRows_spec (ms : Migrations) (hs : Ascending ms) (fuel : Nat)
    (hfuel : ms.length < fuel) :
    ∀ (applied : List Int), applied.Sorted (· ≤ ·) → ∀ (skipped : List Int) (current : Int),
      ∃ added c1,
        scanRows ms fuel (applied.map .ok) skipped current = some (.ok (skipped ++ added, c1)) ∧
        added.Sorted (· < ·) ∧
        (∀ x, x ∈ added ↔
          (∃ m ∈ ms, m.Version = x) ∧ current < x ∧ x ∉ applied ∧ ∃ a ∈ applied, x < a) := by
  intro applied
  induction applied with
  | nil =>
    intro _ skipped current
    exact ⟨[], current, by simp [scanRows], List.sorted_nil, by simp⟩
  | cons a rest ih =>
    intro happ skipped current
    have hrest : rest.Sorted (· ≤ ·) := (List.sorted_cons.1 happ).2
    have hle : ∀ b ∈ rest, a ≤ b := (List.sorted_cons.1 happ).1
    have hcount : ms.countP (fun m => decide (current < m.Version)) < fuel :=
      lt_of_le_of_lt (List.countP_le_length _) hfuel
    obtain ⟨added1, c1, r, hrun, hr, hsorted1, hadd1, hc1, -, hexit⟩ :=
      skipLoop_spec ms hs a fuel skipped current hcount
    -- the value of `current` after the `switch`
    have hstep : ∃ c2, scanRows ms fuel ((a :: rest).map .ok) skipped current =
          scanRows ms fuel (rest.map .ok) (skipped ++ added1) c2 ∧
        ∀ m ∈ ms, (c2 < m.Version ↔ current < m.Version ∧ a < m.Version) := by
      have hc1' : ∀ m ∈ ms, (c1 < m.Version ↔ current < m.Version ∧ a ≤ m.Version) := by
        intro m hm
        have := hc1 m hm
        constructor
        · intro h
          by_contra hcon
          have : m.Version ≤ c1 := this.2 (by omega)
          omega
        · rintro ⟨h1, h2⟩
          by_contra hcon
          have := this.1 (by omega)
          omega
      cases r with
      | error e =>
        obtain ⟨he, hall⟩ := Next_error hr.symm
        subst he
        refine ⟨c1, by simp [scanRows, hrun], ?_⟩
        intro m hm
        have := hall m hm
        constructor
        · intro h; omega
        · rintro ⟨h1, h2⟩; exact (hc1' m hm).2 ⟨h1, by omega⟩
      | ok m0 =>
        obtain ⟨hmem, hlt, hmin⟩ := Next_ok hs hr.symm
        have hex := hexit m0 rfl
        by_cases heq : m0.Version = a
        · refine ⟨m0.Version, by simp [scanRows, hrun, heq], ?_⟩
          intro m hm
          have h0 := (hc1' m0 hmem).1 hlt
          constructor
          · intro h; omega
          · rintro ⟨_, h2⟩; omega
        · refine ⟨c1, by simp [scanRows, hrun, heq], ?_⟩
          intro m hm
          rw [hc1' m hm]
          constructor
          · rintro ⟨h1, h2⟩
            refine ⟨h1, ?_⟩
            have h3 := hmin m hm ((hc1' m hm).2 ⟨h1, h2⟩)
            omega
          · rintro ⟨h1, h2⟩; exact ⟨h1, by omega⟩
    obtain ⟨c2, hstep, hc2⟩ := hstep
    obtain ⟨added2, c3, hrun2, hsorted2, hadd2⟩ := ih hrest (skipped ++ added1) c2
    refine ⟨added1 ++ added2, c3, ?_, ?_, ?_⟩
    · rw [hstep, hrun2, List.append_assoc]
    · refine List.pairwise_append.2 ⟨hsorted1, hsorted2, ?_⟩
      intro x hx y hy
      have h1 := ((hadd1 x).1 hx).2.2
      obtain ⟨⟨m, hm, rfl⟩, h2, _⟩ := (hadd2 y).1 hy
      have := (hc2 m hm).1 h2
      omega
    · intro x
      simp only [List.mem_append, hadd1, hadd2, List.mem_cons, not_or]
      constructor
      · rintro (⟨hx, h1, h2⟩ | ⟨⟨m, hm, rfl⟩, h1, h2, b, hb, h3⟩)
        · refine ⟨hx, h1, ⟨by omega, ?_⟩, a, Or.inl rfl, h2⟩
          intro hmem
          have := hle x hmem
          omega
        · have := (hc2 m hm).1 h1
          exact ⟨⟨m, hm, rfl⟩, this.1, ⟨by omega, h2⟩, b, Or.inr hb, h3⟩
      · rintro ⟨⟨m, hm, rfl⟩, h1, ⟨h2, h3⟩, b, hb, h4⟩
        by_cases hlt : m.Version < a
        · exact Or.inl ⟨⟨m, hm, rfl⟩, h1, hlt⟩
        · right
          have hgt : a < m.Version := by omega
          refine ⟨⟨m, hm, rfl⟩, (hc2 m hm).2 ⟨h1, hgt⟩, h3, ?_⟩
          rcases hb with rfl | hb
          · omega
          · exact ⟨b, hb, h4⟩

theorem lt_maximum_iff (v : Int) (l : List Int) :
    (v : WithBot Int) < l.maximum ↔ ∃ a ∈ l, v < a := by
  constructor
  · intro h
    cases hm : l.maximum with
    | bot => rw [hm] at h; exact absurd h (not_lt_bot)
    | coe m =>
      rw [hm] at h
      exact ⟨m, List.maximum_mem hm, WithBot.coe_lt_coe.1 h⟩
  · rintro ⟨a, ha, hlt⟩
    exact lt_of_lt_of_le (WithBot.coe_lt_coe.2 hlt) (List.le_maximum_of_mem' ha)

theorem skippedVersions_sorted (ms : Migrations) (applied : List Int) (hs : Ascending ms) :
    (skippedVersions ms applied).Sorted (· < ·) := by
  unfold skippedVersions
  apply List.Sorted.filter
  exact (List.pairwise_map).2 hs

theorem mem_skippedVersions (ms : Migrations) (applied : List Int) (x : Int) :
    x ∈ skippedVersions ms applied ↔
      (∃ m ∈ ms, m.Version = x) ∧ x ∉ applied ∧ ∃ a ∈ applied, x < a := by
  simp [skippedVersions, lt_maximum_iff]

theorem scanRows_skipped (minVersion : Int) (ms : Migrations) (applied : List Int) (fuel : Nat)
    (hms : Ascending ms) (hmin : ∀ m ∈ ms, minVersion < m.Version)
    (happ : applied.Sorted (· ≤ ·)) (hfuel : ms.length < fuel) :
    ∃ current, scanRows ms fuel (applied.map .ok) [] minVersion =
      some (.ok (skippedVersions ms applied, current)) := by
  obtain ⟨added, c1, hrun, hsorted, hadd⟩ :=
    scanRows_spec ms hms fuel hfuel applied happ [] minVersion
  have heq : added = skippedVersions ms applied := by
    apply List.eq_of_perm_of_sorted _ hsorted (skippedVersions_sorted ms applied hms)
    apply (List.perm_ext_iff_of_nodup hsorted.nodup (skippedVersions_sorted ms applied hms).nodup).2
    intro x
    rw [hadd, mem_skippedVersions]
    constructor
    · rintro ⟨h1, _, h2, h3⟩; exact ⟨h1, h2, h3⟩
    · rintro ⟨⟨m, hm, rfl⟩, h2, h3⟩; exact ⟨⟨m, hm, rfl⟩, hmin m hm, h2, h3⟩
  refine ⟨c1, ?_⟩
  rw [hrun, heq]
  simp

/-- C1: for every migration sequence strictly ascending by version with all
versions above `minVersion`, and every ascending list of applied versions
scanned without error, the loop of `Check` ends (a fuel above the length of the
sequence is enough) with `skipped` equal to the versions of the sequence, in
sequence order, that do not occur in the applied list and are strictly smaller
than the largest applied version; that list is strictly ascending, so without
repetition. -/
theorem Check_skipped_exact (minVersion : Int) (ms : Migrations) (applied : List Int)
    (fuel : Nat) (hms : ms.Pairwise fun a b => a.Version < b.Version)
    (hmin : ∀ m ∈ ms, minVersion < m.Version)
    (happ : applied.Sorted (· ≤ ·)) (hfuel : ms.length < fuel) :
    (∃ current, scanRows ms fuel (applied.map .ok) [] minVersion =
      some (.ok (skippedVersions ms applied, current))) ∧
    (skippedVersions ms applied).Sorted (· < ·) ∧
    (∀ v, v ∈ skippedVersions ms applied ↔
      (∃ m ∈ ms, m.Version = v) ∧ v ∉ applied ∧ (v : WithBot Int) < applied.maximum) :=
  ⟨scanRows_skipped minVersion ms applied fuel hms hmin happ hfuel,
    skippedVersions_sorted ms applied hms,
    fun v => by rw [mem_skippedVersions, lt_maximum_iff]⟩

/-- Sequence {1,2,3} with applied {1,3}: the skipped list is [2]. -/
theorem Check_skipped_exact_witness :
    (([⟨1, "a"⟩, ⟨2, "b"⟩, ⟨3, "c"⟩] : Migrations).Pairwise fun a b => a.Version < b.Version) ∧
    skippedVersions [⟨1, "a"⟩, ⟨2, "b"⟩, ⟨3, "c"⟩] [1, 3] = [2] ∧
    ∃ current, scanRows [⟨1, "a"⟩, ⟨2, "b"⟩, ⟨3, "c"⟩] 4 ([1, 3].map .ok) [] 0 =
      some (.ok (skippedVersions [⟨1, "a"⟩, ⟨2, "b"⟩, ⟨3, "c"⟩] [1, 3], current)) :=
  ⟨by decide, by decide,
    (Check_skipped_exact 0 [⟨1, "a"⟩, ⟨2, "b"⟩, ⟨3, "c"⟩] [1, 3] 4 (by decide) (by decide)
      (by decide) (by decide)).1⟩

theorem skipLoop_next (ms : Migrations) (v : Int) :
    ∀ (fuel : Nat) (skipped : List Int) (current : Int) (sk1 : List Int) (c1 : Int)
      (r : Except Error Migration),
      skipLoop ms v fuel skipped current (ms.Next current) = some (sk1, c1, r) →
      r = ms.Next c1 := by
  intro fuel
  induction fuel with
  | zero =>
    intro skipped current sk1 c1 r h
    cases hn : ms.Next current with
    | error e =>
      rw [hn] at h; simp [skipLoop] at h
      obtain ⟨_, rfl, rfl⟩ := h
      exact hn.symm
    | ok m => rw [hn] at h; simp [skipLoop] at h
  | succ fuel ih =>
    intro skipped current sk1 c1 r h
    cases hn : ms.Next current with
    | error e =>
      rw [hn] at h; simp [skipLoop] at h
      obtain ⟨_, rfl, rfl⟩ := h
      exact hn.symm
    | ok m =>
      rw [hn] at h
      by_cases hv : m.Version < v
      · simp only [skipLoop, hv, if_true] at h
        exact ih _ _ _ _ _ h
      · simp [skipLoop, hv] at h
        obtain ⟨_, rfl, rfl⟩ := h
        exact hn.symm

theorem scanRows_exhausted (ms : Migrations) (fuel : Nat) (current : Int)
    (h : ms.Next current = .error .ErrNoNextVersion) :
    ∀ (later : List Int) (skipped : List Int),
      scanRows ms fuel (later.map .ok) skipped current = some (.ok (skipped, current)) := by
  intro later
  induction later with
  | nil => intro skipped; simp [scanRows]
  | cons a rest ih =>
    intro skipped
    simp only [List.map_cons, scanRows, h, skipLoop]
    exact ih skipped

theorem scanRows_eq_stop (ms : Migrations) (fuel : Nat) :
    ∀ (applied : List Int) (skipped : List Int) (current : Int),
      scanRows ms fuel (applied.map .ok) skipped current =
        scanRowsStop ms fuel (applied.map .ok) skipped current := by
  intro applied
  induction applied with
  | nil => intro skipped current; simp [scanRows, scanRowsStop]
  | cons a rest ih =>
    intro skipped current
    simp only [List.map_cons, scanRows, scanRowsStop]
    cases hrun : skipLoop ms a fuel skipped current (ms.Next current) with
    | none => rfl
    | some res =>
      obtain ⟨sk1, c1, r⟩ := res
      have hr := skipLoop_next ms a fuel skipped current sk1 c1 r hrun
      cases r with
      | ok m => exact ih _ _
      | error e =>
        cases e with
        | ErrNoNextVersion => exact scanRows_exhausted ms fuel c1 hr.symm rest sk1
        | errorString msg => rfl

/-- C4: for every migration sequence and every applied list, once
`Next(current)` reports `ErrNoNextVersion`, all later ledger entries leave
`skipped` and `current` unchanged; so the loop of `Check` over the whole
applied list gives the same result as the loop that stops scanning ledger
entries at the entry where the sequence is exhausted. -/
theorem Check_exhausted_stops (ms : Migrations) (fuel : Nat) (applied later : List Int)
    (skipped : List Int) (current : Int) :
    (ms.Next current = .error .ErrNoNextVersion →
      scanRows ms fuel (later.map .ok) skipped current = some (.ok (skipped, current))) ∧
    scanRows ms fuel (applied.map .ok) skipped current =
      scanRowsStop ms fuel (applied.map .ok) skipped current :=
  ⟨fun h => scanRows_exhausted ms fuel current h later skipped,
    scanRows_eq_stop ms fuel applied skipped current⟩

/-- Sequence {1,2} with applied {2,5,6}: the entries 5 and 6 change nothing. -/
theorem Check_exhausted_stops_witness :
    Migrations.Next [⟨1, "a"⟩, ⟨2, "b"⟩] 2 = .error .ErrNoNextVersion ∧
    scanRows [⟨1, "a"⟩, ⟨2, "b"⟩] 3 ([5, 6].map .ok) [1] 2 = some (.ok ([1], 2)) ∧
    scanRows [⟨1, "a"⟩, ⟨2, "b"⟩] 3 ([2, 5, 6].map .ok) [] 0 =
      scanRowsStop [⟨1, "a"⟩, ⟨2, "b"⟩] 3 ([2, 5, 6].map .ok) [] 0 :=
  ⟨rfl,
    (Check_exhausted_stops [⟨1, "a"⟩, ⟨2, "b"⟩] 3 [2, 5, 6] [5, 6] [1] 2).1 rfl,
    (Check_exhausted_stops [⟨1, "a"⟩, ⟨2, "b"⟩] 3 [2, 5, 6] [5, 6] [] 0).2⟩

/-! ## Theorems: the ledger query of Check -/

theorem mem_leftJoinNewer_none (table : List LedgerRow) (g : LedgerRow) :
    (g, none) ∈ leftJoinNewer table ↔
      g ∈ table ∧ ∀ n ∈ table, n.version_id = g.version_id → n.tstamp ≤ g.tstamp := by
  unfold leftJoinNewer
  simp only [List.mem_flatMap]
  constructor
  · rintro ⟨g1, hg1, hmem⟩
    split at hmem
    · rename_i hnil
      simp at hmem
      subst hmem
      refine ⟨hg1, ?_⟩
      intro n hn hv
      have := List.filter_eq_nil_iff.1 hnil n hn
      simp [hv] at this
      exact this
    · simp at hmem
  · rintro ⟨hg, hall⟩
    refine ⟨g, hg, ?_⟩
    have hnil : table.filter (fun newer =>
        decide (newer.version_id = g.version_id) && decide (newer.tstamp > g.tstamp)) = [] := by
      apply List.filter_eq_nil_iff.2
      intro n hn
      have := hall n hn
      simp
      intro hv
      exact this hv
    rw [hnil]
    simp

theorem mem_checkQuery (minVersion : Int) (table : List LedgerRow) (v : Int) :
    v ∈ checkQuery minVersion table ↔
      minVersion < v ∧ ∃ r ∈ table, r.version_id = v ∧ r.is_applied = true ∧
        ∀ r1 ∈ table, r1.version_id = v → r1.tstamp ≤ r.tstamp := by
  unfold checkQuery
  rw [List.mem_insertionSort]
  simp only [List.mem_map, List.mem_filter]
  constructor
  · rintro ⟨⟨g, newer⟩, ⟨hmem, hwhere⟩, rfl⟩
    cases newer with
    | some n => simp [checkWhere] at hwhere
    | none =>
      simp [checkWhere] at hwhere
      obtain ⟨hg, hall⟩ := (mem_leftJoinNewer_none table g).1 hmem
      exact ⟨hwhere.1, g, hg, rfl, hwhere.2, hall⟩
  · rintro ⟨hmin, r, hr, rfl, happ, hall⟩
    exact ⟨(r, none), ⟨(mem_leftJoinNewer_none table r).2 ⟨hr, hall⟩,
      by simp [checkWhere, hmin, happ]⟩, rfl⟩

/-- C2 (amended): a version `v` is in the result of the query of `Check` exactly
when `v > minVersion` and some row of `v` with `is_applied = true` has a
timestamp that no row of `v` exceeds; the result is ascending. Ties on the
timestamp are not broken by `id`. When no two rows of `v` with different ids
share a timestamp, this is the latest-row rule: the latest row of `v` has
`is_applied = true`. -/
theorem checkQuery_latest_by_tstamp (minVersion : Int) (table : List LedgerRow) (v : Int) :
    (v ∈ checkQuery minVersion table ↔
      minVersion < v ∧ ∃ r ∈ table, r.version_id = v ∧ r.is_applied = true ∧
        ∀ r1 ∈ table, r1.version_id = v → r1.tstamp ≤ r.tstamp) ∧
    (checkQuery minVersion table).Sorted (· ≤ ·) ∧
    ((∀ r1 ∈ table, ∀ r2 ∈ table, r1.version_id = v → r2.version_id = v →
        r1.tstamp = r2.tstamp → r1.id = r2.id) →
      (v ∈ checkQuery minVersion table ↔ minVersion < v ∧ latestApplied table v)) := by
  refine ⟨mem_checkQuery minVersion table v, List.sorted_insertionSort _ _, ?_⟩
  intro hties
  rw [mem_checkQuery]
  constructor
  · rintro ⟨hmin, r, hr, hv, happ, hall⟩
    refine ⟨hmin, r, hr, hv, ⟨hr, ?_⟩, happ⟩
    intro r1 hr1 hv1
    have hle := hall r1 hr1 (hv1.trans hv)
    rcases lt_or_eq_of_le hle with h | h
    · exact Or.inl h
    · exact Or.inr ⟨h, le_of_eq (hties r1 hr1 r hr (hv1.trans hv) hv h)⟩
  · rintro ⟨hmin, r, hr, hv, ⟨_, hlatest⟩, happ⟩
    refine ⟨hmin, r, hr, hv, happ, ?_⟩
    intro r1 hr1 hv1
    rcases hlatest r1 hr1 (hv1.trans hv.symm) with h | h
    · exact le_of_lt h
    · exact le_of_eq h.1

/-- Version 7 was applied at time 10 and rolled back at time 20, version 8 was
applied once, version 9 was rolled back at time 10 and applied again at time 30.
No two rows of version 7 share a timestamp and its latest row is the rollback, so
7 is not listed; the query returns 8 and 9. -/
theorem checkQuery_latest_by_tstamp_witness :
    (∀ r1 ∈ [(⟨1, 7, 10, true⟩ : LedgerRow), ⟨2, 7, 20, false⟩, ⟨3, 8, 20, true⟩, ⟨4, 9, 10, false⟩,
        ⟨5, 9, 30, true⟩],
      ∀ r2 ∈ [(⟨1, 7, 10, true⟩ : LedgerRow), ⟨2, 7, 20, false⟩, ⟨3, 8, 20, true⟩, ⟨4, 9, 10, false⟩,
        ⟨5, 9, 30, true⟩],
        r1.version_id = 7 → r2.version_id = 7 → r1.tstamp = r2.tstamp → r1.id = r2.id) ∧
    checkQuery 0 [⟨1, 7, 10, true⟩, ⟨2, 7, 20, false⟩, ⟨3, 8, 20, true⟩, ⟨4, 9, 10, false⟩, ⟨5, 9, 30, true⟩] = [8, 9] ∧
    ¬ latestApplied [⟨1, 7, 10, true⟩, ⟨2, 7, 20, false⟩, ⟨3, 8, 20, true⟩, ⟨4, 9, 10, false⟩, ⟨5, 9, 30, true⟩] 7 ∧
    latestApplied [⟨1, 7, 10, true⟩, ⟨2, 7, 20, false⟩, ⟨3, 8, 20, true⟩, ⟨4, 9, 10, false⟩, ⟨5, 9, 30, true⟩] 9 ∧
    (7 ∈ checkQuery 0 [⟨1, 7, 10, true⟩, ⟨2, 7, 20, false⟩, ⟨3, 8, 20, true⟩, ⟨4, 9, 10, false⟩, ⟨5, 9, 30, true⟩] ↔
      (0 : Int) < 7 ∧
        latestApplied [⟨1, 7, 10, true⟩, ⟨2, 7, 20, false⟩, ⟨3, 8, 20, true⟩, ⟨4, 9, 10, false⟩, ⟨5, 9, 30, true⟩] 7) ∧
    (9 ∈ checkQuery 0 [⟨1, 7, 10, true⟩, ⟨2, 7, 20, false⟩, ⟨3, 8, 20, true⟩, ⟨4, 9, 10, false⟩, ⟨5, 9, 30, true⟩] ↔
      (0 : Int) < 9 ∧
        latestApplied [⟨1, 7, 10, true⟩, ⟨2, 7, 20, false⟩, ⟨3, 8, 20, true⟩, ⟨4, 9, 10, false⟩, ⟨5, 9, 30, true⟩] 9) :=
  ⟨by decide, by decide, by decide, by decide,
    (checkQuery_latest_by_tstamp 0
      [⟨1, 7, 10, true⟩, ⟨2, 7, 20, false⟩, ⟨3, 8, 20, true⟩, ⟨4, 9, 10, false⟩, ⟨5, 9, 30, true⟩] 7).2.2
      (by decide),
    (checkQuery_latest_by_tstamp 0
      [⟨1, 7, 10, true⟩, ⟨2, 7, 20, false⟩, ⟨3, 8, 20, true⟩, ⟨4, 9, 10, false⟩, ⟨5, 9, 30, true⟩] 9).2.2
      (by decide)⟩

/-- C2 (as stated, refuted): version 1 was applied (id 1) and rolled back (id 2)
at the same timestamp. The ids are unique and the latest row, the one with the
larger id, has `is_applied = false`, yet the query lists version 1. -/
theorem checkQuery_tie_not_broken_by_id :
    ([(⟨1, 1, 0, true⟩ : LedgerRow), ⟨2, 1, 0, false⟩].map LedgerRow.id).Nodup ∧
    ¬ (1 ∈ checkQuery 0 [⟨1, 1, 0, true⟩, ⟨2, 1, 0, false⟩] ↔
        (0 : Int) < 1 ∧ latestApplied [⟨1, 1, 0, true⟩, ⟨2, 1, 0, false⟩] 1) := by
  decide
/-! ## Theorems: the status line -/

theorem statusQueryAnswer_spec (table : List LedgerRow) (version : Int) (scan : ScanOutcome)
    (h : statusQueryAnswer table version scan) :
    (scan = .ErrNoRows ∧ ∀ r ∈ table, r.version_id ≠ version) ∨
    ∃ r ∈ table, r.version_id = version ∧
      (∀ r1 ∈ table, r1.version_id = version → r1.tstamp ≤ r.tstamp) ∧
      scan = .scanned r.tstamp r.is_applied := by
  obtain ⟨ordered, ⟨hperm, hsorted⟩, rfl⟩ := h
  have hmem : ∀ r, r ∈ ordered ↔ r ∈ table ∧ r.version_id = version := by
    intro r
    rw [hperm.mem_iff]
    simp [statusWhere]
  cases ordered with
  | nil =>
    left
    refine ⟨rfl, ?_⟩
    intro r hr hv
    exact absurd ((hmem r).2 ⟨hr, hv⟩) (List.not_mem_nil r)
  | cons r tl =>
    right
    have hr := (hmem r).1 (List.mem_cons_self _ _)
    refine ⟨r, hr.1, hr.2, ?_, rfl⟩
    intro r1 hr1 hv1
    rcases List.mem_cons.1 ((hmem r1).2 ⟨hr1, hv1⟩) with h1 | h1
    · rw [h1]
    · exact (List.sorted_cons.1 hsorted).1 r1 h1

theorem statusQueryAnswer_exists (table : List LedgerRow) (version : Int) :
    ∃ scan, statusQueryAnswer table version scan := by
  haveI : IsTotal LedgerRow (fun a b => a.tstamp ≥ b.tstamp) := ⟨fun a b => le_total _ _⟩
  haveI : IsTrans LedgerRow (fun a b => a.tstamp ≥ b.tstamp) :=
    ⟨fun a b c hab hbc => le_trans hbc hab⟩
  exact ⟨_, (statusWhere table version).insertionSort (fun a b => a.tstamp ≥ b.tstamp),
    ⟨List.perm_insertionSort _ _, List.sorted_insertionSort _ _⟩, rfl⟩

/-- C9 (as stated, refuted): version 1 was applied (id 1) and rolled back (id 2)
at the same timestamp. Both rows have the greatest `tstamp`, the query may
return either, and the line is the timestamp for one answer and `Pending` for
the other; so no criterion on the ledger alone, the one of the claim included,
decides the line. -/
theorem printMigrationStatus_tie_counterexample :
    statusQueryAnswer [⟨1, 1, 0, true⟩, ⟨2, 1, 0, false⟩] 1 (.scanned 0 true) ∧
    statusQueryAnswer [⟨1, 1, 0, true⟩, ⟨2, 1, 0, false⟩] 1 (.scanned 0 false) ∧
    printMigrationStatus (.scanned 0 true) "00001_a.sql" =
      some (.formatted 0, "00001_a.sql") ∧
    printMigrationStatus (.scanned 0 false) "00001_a.sql" = some (.Pending, "00001_a.sql") ∧
    (¬ ∀ scan, statusQueryAnswer [⟨1, 1, 0, true⟩, ⟨2, 1, 0, false⟩] 1 scan →
        ∃ appliedAt, printMigrationStatus scan "00001_a.sql" = some (appliedAt, "00001_a.sql") ∧
          (appliedAt = .Pending ↔ pendingByLedger [⟨1, 1, 0, true⟩, ⟨2, 1, 0, false⟩] 1)) ∧
    ∀ criterion : Prop,
      ¬ ∀ scan, statusQueryAnswer [⟨1, 1, 0, true⟩, ⟨2, 1, 0, false⟩] 1 scan →
        ∃ appliedAt, printMigrationStatus scan "00001_a.sql" = some (appliedAt, "00001_a.sql") ∧
          (appliedAt = .Pending ↔ criterion) := by
  have h1 : statusQueryAnswer [⟨1, 1, 0, true⟩, ⟨2, 1, 0, false⟩] 1 (.scanned 0 true) :=
    ⟨[⟨1, 1, 0, true⟩, ⟨2, 1, 0, false⟩], ⟨by decide, by decide⟩, rfl⟩
  have h2 : statusQueryAnswer [⟨1, 1, 0, true⟩, ⟨2, 1, 0, false⟩] 1 (.scanned 0 false) :=
    ⟨[⟨2, 1, 0, false⟩, ⟨1, 1, 0, true⟩], ⟨by decide, by decide⟩, rfl⟩
  have hany : ∀ criterion : Prop,
      ¬ ∀ scan, statusQueryAnswer [⟨1, 1, 0, true⟩, ⟨2, 1, 0, false⟩] 1 scan →
        ∃ appliedAt, printMigrationStatus scan "00001_a.sql" = some (appliedAt, "00001_a.sql") ∧
          (appliedAt = .Pending ↔ criterion) := by
    intro criterion hall
    obtain ⟨a1, hp1, hc1⟩ := hall _ h1
    obtain ⟨a2, hp2, hc2⟩ := hall _ h2
    have e1 : a1 = .formatted 0 := by
      have : some (a1, "00001_a.sql") = some (AppliedAt.formatted 0, "00001_a.sql") :=
        hp1.symm.trans rfl
      simpa using this
    have e2 : a2 = .Pending := by
      have : some (a2, "00001_a.sql") = some (AppliedAt.Pending, "00001_a.sql") :=
        hp2.symm.trans rfl
      simpa using this
    subst e1 e2
    have hc : criterion := hc2.1 rfl
    exact absurd (hc1.2 hc) (by decide)
  exact ⟨h1, h2, rfl, rfl, hany _, hany⟩

/-- C9 (amended): for every ledger and version the status query has an answer,
and for every answer an error-free database may give, `printMigrationStatus`
prints its line (it does not end the process). The line says `Pending` only if
the ledger has no row for the version or a row of the version with the greatest
`tstamp` has `is_applied = false`; otherwise it shows the timestamp of a row of
the version with the greatest `tstamp` and `is_applied = true`. When the rows of
the version that share the greatest `tstamp` agree on `is_applied` (in
particular when the newest row is unique), the line says `Pending` if and only
if the ledger has no row for the version or the row with the greatest `tstamp`
has `is_applied = false`. -/
theorem printMigrationStatus_pending_iff_of_agree (table : List LedgerRow) (version : Int)
    (script : String) :
    (∃ scan, statusQueryAnswer table version scan) ∧
    ∀ scan, statusQueryAnswer table version scan →
      ∃ appliedAt, printMigrationStatus scan script = some (appliedAt, script) ∧
        (appliedAt = .Pending → pendingByLedger table version) ∧
        (appliedAt ≠ .Pending →
          ∃ r ∈ table, r.version_id = version ∧
            (∀ r1 ∈ table, r1.version_id = version → r1.tstamp ≤ r.tstamp) ∧
            r.is_applied = true ∧ appliedAt = .formatted r.tstamp) ∧
        (latestRowsAgree table version →
          (appliedAt = .Pending ↔ pendingByLedger table version)) := by
  refine ⟨statusQueryAnswer_exists table version, ?_⟩
  intro scan h
  rcases statusQueryAnswer_spec table version scan h with ⟨rfl, hno⟩ | ⟨r, hr, hv, hall, rfl⟩
  · refine ⟨.Pending, by simp [printMigrationStatus], fun _ => Or.inl hno,
      fun hne => absurd rfl hne, fun _ => ⟨fun _ => Or.inl hno, fun _ => rfl⟩⟩
  · cases hap : r.is_applied with
    | false =>
      have hpend : pendingByLedger table version := Or.inr ⟨r, hr, hv, hall, hap⟩
      refine ⟨.Pending, by simp [printMigrationStatus], fun _ => hpend,
        fun hne => absurd rfl hne, fun _ => ⟨fun _ => hpend, fun _ => rfl⟩⟩
    | true =>
      refine ⟨.formatted r.tstamp, by simp [printMigrationStatus], fun hp => by simp at hp,
        fun _ => ⟨r, hr, hv, hall, hap, rfl⟩, ?_⟩
      intro hagree
      constructor
      · intro hp; simp at hp
      · rintro (hno | ⟨r2, hr2, hv2, hall2, hap2⟩)
        · exact absurd hv (hno r hr)
        · have := hagree r hr r2 hr2 hv hv2 hall hall2
          rw [hap, hap2] at this
          exact absurd this (by decide)

/-- Version 3 was applied at time 10 and rolled back at time 20: the newest row
is unique, the query returns it, and the status line says `Pending`. -/
theorem printMigrationStatus_pending_iff_of_agree_witness :
    statusQueryAnswer [⟨1, 3, 10, true⟩, ⟨2, 3, 20, false⟩] 3 (.scanned 20 false) ∧
    latestRowsAgree [⟨1, 3, 10, true⟩, ⟨2, 3, 20, false⟩] 3 ∧
    pendingByLedger [⟨1, 3, 10, true⟩, ⟨2, 3, 20, false⟩] 3 ∧
    printMigrationStatus (.scanned 20 false) "00003_c.sql" =
      some (.Pending, "00003_c.sql") ∧
    ∃ appliedAt, printMigrationStatus (.scanned 20 false) "00003_c.sql" =
        some (appliedAt, "00003_c.sql") ∧
      (appliedAt = .Pending ↔ pendingByLedger [⟨1, 3, 10, true⟩, ⟨2, 3, 20, false⟩] 3) :=
  have hq : statusQueryAnswer [⟨1, 3, 10, true⟩, ⟨2, 3, 20, false⟩] 3 (.scanned 20 false) :=
    ⟨[⟨2, 3, 20, false⟩, ⟨1, 3, 10, true⟩], ⟨by decide, by decide⟩, rfl⟩
  ⟨hq, by decide, by decide, rfl,
    ((printMigrationStatus_pending_iff_of_agree [⟨1, 3, 10, true⟩, ⟨2, 3, 20, false⟩] 3
      "00003_c.sql").2 _ hq).imp fun _ h => ⟨h.1, h.2.2.2 (by decide)⟩⟩

/-! ## Theorems: the command line -/

theorem needParams_bounds (driver dbstring : String) :
    1 ≤ needParams driver dbstring ∧ needParams driver dbstring ≤ 3 := by
  unfold needParams
  split_ifs <;> simp

theorem mainConfigured_no_panic (args : List String) (driver dbstring : String)
    (i : Int) (n : Nat) :
    mainConfigured args driver dbstring ≠ .ok (.indexOutOfRange i n) ∧
    mainConfigured args driver dbstring ≠ .error (.indexOutOfRange i n) := by
  by_cases hd : driver = "" <;> by_cases hs : dbstring = "" <;>
    rcases args with _ | ⟨a, _ | ⟨b, _ | ⟨c, rest⟩⟩⟩ <;>
    simp [mainConfigured, needParams, index, hd, hs] <;>
    constructor <;> split_ifs <;> simp <;> split_ifs <;> simp

theorem mainConfigured_usage (args : List String) (driver dbstring : String) :
    needParams driver dbstring ≤ (args.length : Int) ∨
      mainConfigured args driver dbstring = .error .usage := by
  by_cases h : (args.length : Int) < needParams driver dbstring
  · right; simp [mainConfigured, h]
  · left; omega

theorem main_no_panic (args : List String) (config : String × String) (i : Int) (n : Nat) :
    main args config ≠ .indexOutOfRange i n := by
  obtain ⟨driver, dbstring⟩ := config
  have h := mainConfigured_no_panic args driver dbstring i n
  unfold main
  rcases args with _ | ⟨a, _ | ⟨b, rest⟩⟩
  · simp at *; split <;> simp_all
  · simp at *; split <;> simp_all
  · simp [index, Except.map] at *
    split
    · simp_all
    · simp
    · split <;> simp_all

/-- C10: for every argument list and every pair returned by `loadConfig`, no
index expression of `main` is evaluated outside the bounds of `args` (the run
never ends in an index-out-of-range panic); `needParams` is between 1 and 3,
and the part of `main` after the `create` shortcut prints the usage and returns
whenever `len(args) < needParams`. -/
theorem main_index_in_range (args : List String) (config : String × String) :
    (∀ i n, main args config ≠ .indexOutOfRange i n) ∧
    (1 ≤ needParams config.1 config.2 ∧ needParams config.1 config.2 ≤ 3) ∧
    (needParams config.1 config.2 ≤ (args.length : Int) ∨
      mainConfigured args config.1 config.2 = .error .usage) :=
  ⟨fun i n => main_no_panic args config i n, needParams_bounds _ _,
    mainConfigured_usage args _ _⟩

theorem mainConfigured_positional (a b c : String) (rest : List String)
    (h2 : a ≠ "-h") (h3 : a ≠ "--help") (hs : driverSupported a = true) :
    mainConfigured (a :: b :: c :: rest) "" "" =
      .ok (.openAndRun a (if a = "redshift" then "postgres" else a) a c rest) := by
  have hne : a ≠ "" := by
    rintro rfl
    revert hs
    decide
  simp [mainConfigured, needParams, index, h2, h3, hs, hne]
  split_ifs <;> simp_all
  omega

theorem mainConfigured_arguments (args : List String) (driver dbstring : String)
    (dialect driver1 dbstring1 command : String) (arguments : List String) :
    (mainConfigured args driver dbstring =
        .ok (.openAndRun dialect driver1 dbstring1 command arguments) →
      arguments = args.drop 3 ∧ index args (needParams driver dbstring - 1) = .ok command) ∧
    mainConfigured args driver dbstring ≠
      .error (.openAndRun dialect driver1 dbstring1 command arguments) := by
  by_cases hd : driver = "" <;> by_cases hs : dbstring = "" <;>
    rcases args with _ | ⟨a, _ | ⟨b, _ | ⟨c, rest⟩⟩⟩ <;>
    simp [mainConfigured, needParams, index, hd, hs] <;>
    constructor <;> split_ifs <;> simp <;> (try split_ifs) <;> simp_all

/-- C7 (the code departs from it): with no driver and no DSN from the
configuration, for every argument list `DRIVER DBSTRING COMMAND ...` whose first
argument is a supported driver and is not `create`, `-h` or `--help`, `main`
uses `args[0]` as the driver and `args[2]` as the command, but passes `args[0]`
again, not `args[1]`, to `sql.Open` as the connection string: the test
`driver == ""` on line 72 is made after line 70 has filled `driver`. -/
theorem main_positional_dbstring_is_driver (a b c : String) (rest : List String)
    (h1 : a ≠ "create") (h2 : a ≠ "-h") (h3 : a ≠ "--help")
    (hs : driverSupported a = true) :
    main (a :: b :: c :: rest) ("", "") =
      .openAndRun a (if a = "redshift" then "postgres" else a) a c rest := by
  have hbeq : (a == "create") = false := by simp [h1]
  simp [main, index, Except.map, hbeq, mainConfigured_positional a b c rest h2 h3 hs]

/-- The usage example `goose sqlite3 ./foo.db status`: the database that is
opened is `sqlite3`, not `./foo.db`. -/
theorem main_positional_dbstring_is_driver_witness :
    main ["sqlite3", "./foo.db", "status"] ("", "") =
      .openAndRun "sqlite3" "sqlite3" "sqlite3" "status" [] :=
  main_positional_dbstring_is_driver "sqlite3" "./foo.db" "status" [] (by decide) (by decide)
    (by decide) (by decide)

/-- C8 (the code departs from it): whenever `main` reaches `goose.Run`, the
command is `args[needParams-1]` but the extra arguments are `args[3:]`, whatever
`needParams` is; so when the configuration supplies the driver or the DSN, the
first arguments after the command word are dropped. -/
theorem main_arguments_from_fourth (args : List String) (config : String × String)
    (dialect driver dbstring command : String) (arguments : List String)
    (h : main args config = .openAndRun dialect driver dbstring command arguments) :
    arguments = args.drop 3 ∧
      index args (needParams config.1 config.2 - 1) = .ok command := by
  have hc := mainConfigured_arguments args config.1 config.2 dialect driver dbstring command
    arguments
  have hrest : (match mainConfigured args config.1 config.2 with
      | .ok o => o
      | .error o => o) = .openAndRun dialect driver dbstring command arguments →
      arguments = args.drop 3 ∧
        index args (needParams config.1 config.2 - 1) = .ok command := by
    cases hm : mainConfigured args config.1 config.2 with
    | error o =>
      intro h1
      exact absurd (by rw [hm]; exact congrArg Except.error h1) hc.2
    | ok o =>
      intro h1
      exact hc.1 (by rw [hm]; exact congrArg Except.ok h1)
  rcases args with _ | ⟨a, _ | ⟨b, rest⟩⟩
  · exact hrest (by simpa [main] using h)
  · exact hrest (by simpa [main] using h)
  · by_cases hcr : a = "create"
    · have hbeq : (a == "create") = true := by simp [hcr]
      simp [main, index, Except.map, hbeq] at h
    · have hbeq : (a == "create") = false := by simp [hcr]
      apply hrest
      simpa [main, index, Except.map, hbeq] using h

/-- With driver and DSN from the configuration, `up-to 5` reaches `goose.Run`
without its version. -/
theorem main_arguments_from_fourth_witness :
    main ["up-to", "5"] ("postgres", "user=postgres") =
      .openAndRun "postgres" "postgres" "user=postgres" "up-to" [] ∧
    ([] : List String) = ["up-to", "5"].drop 3 ∧
      index ["up-to", "5"] (needParams "postgres" "user=postgres" - 1) = .ok "up-to" :=
  ⟨by decide,
    main_arguments_from_fourth ["up-to", "5"] ("postgres", "user=postgres") "postgres"
      "postgres" "user=postgres" "up-to" [] (by decide)⟩

/-! ## Lemmas: decimal rendering -/

theorem decimalDigits_fuel (f1 : Nat) : ∀ (f2 n : Nat), n < f1 → n < f2 →
    decimalDigits f1 n = decimalDigits f2 n := by
  induction f1 with
  | zero => intro f2 n h; omega
  | succ f1 ih =>
    intro f2 n h1 h2
    cases f2 with
    | zero => omega
    | succ f2 =>
      simp only [decimalDigits]
      split
      · rfl
      · rw [ih f2 (n / 10) (by omega) (by omega)]

theorem formatUint_lt (n : Nat) (h : n < 10) : formatUint n = [digitChar n] := by
  simp [formatUint, decimalDigits, h]

theorem formatUint_snoc (n : Nat) (h : 10 ≤ n) :
    formatUint n = formatUint (n / 10) ++ [digitChar (n % 10)] := by
  have hn : ¬ n < 10 := by omega
  have hstep : decimalDigits (n + 1) n =
      if n < 10 then [digitChar n] else decimalDigits n (n / 10) ++ [digitChar (n % 10)] := rfl
  unfold formatUint
  rw [hstep, if_neg hn, decimalDigits_fuel n (n / 10 + 1) (n / 10) (by omega) (by omega)]

theorem digitChar_toNat (d : Nat) (h : d < 10) : (digitChar d).toNat = 48 + d := by
  interval_cases d <;> rfl

theorem formatUint_digits (n : Nat) : ∀ c ∈ formatUint n, 48 ≤ c.toNat ∧ c.toNat ≤ 57 := by
  induction n using Nat.strong_induction_on with
  | _ n ih =>
    by_cases h : n < 10
    · rw [formatUint_lt n h]
      intro c hc
      simp only [List.mem_singleton] at hc
      rw [hc, digitChar_toNat n h]
      omega
    · rw [formatUint_snoc n (by omega)]
      intro c hc
      rcases List.mem_append.1 hc with h1 | h1
      · exact ih (n / 10) (by omega) c h1
      · simp only [List.mem_singleton] at h1
        rw [h1, digitChar_toNat _ (Nat.mod_lt _ (by decide))]
        omega

theorem formatUint_length_le (k : Nat) : ∀ n : Nat, n < 10 ^ (k + 1) →
    (formatUint n).length ≤ k + 1 := by
  induction k with
  | zero =>
    intro n h
    rw [formatUint_lt n (by simpa using h)]
    simp
  | succ k ih =>
    intro n h
    by_cases h10 : n < 10
    · rw [formatUint_lt n h10]; simp
    · rw [formatUint_snoc n (by omega)]
      have : n / 10 < 10 ^ (k + 1) := by
        rw [Nat.div_lt_iff_lt_mul (by decide)]
        calc n < 10 ^ (k + 1 + 1) := h
          _ = 10 ^ (k + 1) * 10 := by ring
      have := ih (n / 10) this
      simp
      omega

theorem formatUint_length_gt (k : Nat) : ∀ n : Nat, 10 ^ k ≤ n → k < (formatUint n).length := by
  induction k with
  | zero =>
    intro n _
    by_cases h10 : n < 10
    · rw [formatUint_lt n h10]; simp
    · rw [formatUint_snoc n (by omega)]; simp
  | succ k ih =>
    intro n h
    have h10 : 10 ≤ n := by
      calc 10 = 10 ^ 1 := by norm_num
        _ ≤ 10 ^ (k + 1) := Nat.pow_le_pow_right (by decide) (by omega)
        _ ≤ n := h
    rw [formatUint_snoc n h10]
    have : 10 ^ k ≤ n / 10 := by
      rw [Nat.le_div_iff_mul_le (by decide)]
      calc 10 ^ k * 10 = 10 ^ (k + 1) := by ring
        _ ≤ n := h
    have := ih (n / 10) this
    simp
    omega

theorem formatUint_fourteen (n : Nat) (h1 : 10 ^ 13 ≤ n) (h2 : n < 10 ^ 14) :
    formatUint n =
      [digitChar (n / 10000000000000), digitChar (n / 1000000000000 % 10),
       digitChar (n / 100000000000 % 10), digitChar (n / 10000000000 % 10),
       digitChar (n / 1000000000 % 10), digitChar (n / 100000000 % 10),
       digitChar (n / 10000000 % 10), digitChar (n / 1000000 % 10),
       digitChar (n / 100000 % 10), digitChar (n / 10000 % 10),
       digitChar (n / 1000 % 10), digitChar (n / 100 % 10),
       digitChar (n / 10 % 10), digitChar (n % 10)] := by
  norm_num at h1 h2
  rw [formatUint_snoc n (by omega), formatUint_snoc (n / 10) (by omega),
    formatUint_snoc (n / 10 / 10) (by omega), formatUint_snoc (n / 10 / 10 / 10) (by omega),
    formatUint_snoc (n / 10 / 10 / 10 / 10) (by omega),
    formatUint_snoc (n / 10 / 10 / 10 / 10 / 10) (by omega),
    formatUint_snoc (n / 10 / 10 / 10 / 10 / 10 / 10) (by omega),
    formatUint_snoc (n / 10 / 10 / 10 / 10 / 10 / 10 / 10) (by omega),
    formatUint_snoc (n / 10 / 10 / 10 / 10 / 10 / 10 / 10 / 10) (by omega),
    formatUint_snoc (n / 10 / 10 / 10 / 10 / 10 / 10 / 10 / 10 / 10) (by omega),
    formatUint_snoc (n / 10 / 10 / 10 / 10 / 10 / 10 / 10 / 10 / 10 / 10) (by omega),
    formatUint_snoc (n / 10 / 10 / 10 / 10 / 10 / 10 / 10 / 10 / 10 / 10 / 10) (by omega),
    formatUint_snoc (n / 10 / 10 / 10 / 10 / 10 / 10 / 10 / 10 / 10 / 10 / 10 / 10) (by omega),
    formatUint_lt (n / 10 / 10 / 10 / 10 / 10 / 10 / 10 / 10 / 10 / 10 / 10 / 10 / 10) (by omega)]
  simp only [Nat.div_div_eq_div_mul, List.append_assoc, List.singleton_append, List.cons_append,
    List.nil_append]

/-! ## Lemmas: parsing a version as a date-time stamp -/

theorem digit_not_sign (c : Char) (h : 48 ≤ c.toNat) :
    (c == '-') = false ∧ (c == '+') = false ∧ commaOrPeriod c = false := by
  have h1 : c ≠ '-' := by rintro rfl; revert h; decide
  have h2 : c ≠ '+' := by rintro rfl; revert h; decide
  have h3 : c ≠ '.' := by rintro rfl; revert h; decide
  have h4 : c ≠ ',' := by rintro rfl; revert h; decide
  simp [commaOrPeriod, h1, h2, h3, h4]

theorem timeParse_fourteen (c0 c1 c2 c3 c4 c5 c6 c7 c8 c9 c10 c11 c12 c13 : Char)
    (h0 : 48 ≤ c0.toNat ∧ c0.toNat ≤ 57) (h1 : 48 ≤ c1.toNat ∧ c1.toNat ≤ 57)
    (h2 : 48 ≤ c2.toNat ∧ c2.toNat ≤ 57) (h3 : 48 ≤ c3.toNat ∧ c3.toNat ≤ 57)
    (h4 : 48 ≤ c4.toNat ∧ c4.toNat ≤ 57) (h5 : 48 ≤ c5.toNat ∧ c5.toNat ≤ 57)
    (h6 : 48 ≤ c6.toNat ∧ c6.toNat ≤ 57) (h7 : 48 ≤ c7.toNat ∧ c7.toNat ≤ 57)
    (h8 : 48 ≤ c8.toNat ∧ c8.toNat ≤ 57) (h9 : 48 ≤ c9.toNat ∧ c9.toNat ≤ 57)
    (h10 : 48 ≤ c10.toNat ∧ c10.toNat ≤ 57) (h11 : 48 ≤ c11.toNat ∧ c11.toNat ≤ 57)
    (h12 : 48 ≤ c12.toNat ∧ c12.toNat ≤ 57) (h13 : 48 ≤ c13.toNat ∧ c13.toNat ≤ 57) :
    (timeParse [c0, c1, c2, c3, c4, c5, c6, c7, c8, c9, c10, c11, c12, c13]).isSome = true ↔
      1 ≤ digitVal c4 * 10 + digitVal c5 ∧ digitVal c4 * 10 + digitVal c5 ≤ 12 ∧
      1 ≤ digitVal c6 * 10 + digitVal c7 ∧
      digitVal c6 * 10 + digitVal c7 ≤ daysIn (digitVal c4 * 10 + digitVal c5)
        (((((digitVal c0 * 10 + digitVal c1) * 10 + digitVal c2) * 10 + digitVal c3 : Nat) : Int)) ∧
      digitVal c8 * 10 + digitVal c9 < 24 ∧ digitVal c10 * 10 + digitVal c11 < 60 ∧
      digitVal c12 * 10 + digitVal c13 < 60 := by
  have s0 := digit_not_sign c0 h0.1
  simp [timeParse, isDigit, getnum, atoi, leadingInt, h0, h1, h2, h3, h4, h5, h6, h7, h8, h9, h10,
    h11, h12, h13, s0]
  generalize daysIn _ _ = D
  split_ifs <;> simp <;> omega

theorem digit_ne_minus (c : Char) (h : 48 ≤ c.toNat) : (c == '-') = false :=
  (digit_not_sign c h).1

theorem digit_ne_plus (c : Char) (h : 48 ≤ c.toNat) : (c == '+') = false :=
  (digit_not_sign c h).2.1

theorem digit_not_commaOrPeriod (c : Char) (h : 48 ≤ c.toNat) : commaOrPeriod c = false :=
  (digit_not_sign c h).2.2

theorem timeParse_digits_length (l : List Char) (hd : ∀ c ∈ l, 48 ≤ c.toNat ∧ c.toNat ≤ 57)
    (h : (timeParse l).isSome = true) : l.length = 14 := by
  rcases l with _ | ⟨c0, _ | ⟨c1, _ | ⟨c2, _ | ⟨c3, _ | ⟨c4, _ | ⟨c5, _ | ⟨c6, _ | ⟨c7,
    _ | ⟨c8, _ | ⟨c9, _ | ⟨c10, _ | ⟨c11, _ | ⟨c12, _ | ⟨c13, _ | ⟨c14, rest⟩⟩⟩⟩⟩⟩⟩⟩⟩⟩⟩⟩⟩⟩⟩
  all_goals try rfl
  all_goals exfalso
  all_goals try simp only [List.forall_mem_cons] at hd
  all_goals
    try simp [timeParse, isDigit, getnum, atoi, leadingInt, hd, digit_ne_minus, digit_ne_plus,
      digit_not_commaOrPeriod] at h

theorem digitChar_isDigit (d : Nat) (h : d < 10) :
    48 ≤ (digitChar d).toNat ∧ (digitChar d).toNat ≤ 57 := by
  rw [digitChar_toNat d h]
  omega

theorem digitVal_digitChar (d : Nat) (h : d < 10) : digitVal (digitChar d) = d := by
  unfold digitVal
  rw [digitChar_toNat d h]
  omega

theorem isLeap_eq_leapYear (y : Nat) : isLeap (y : Int) = leapYear y := by
  unfold isLeap leapYear
  rw [Bool.eq_iff_iff]
  simp only [Bool.and_eq_true, Bool.or_eq_true, decide_eq_true_eq, beq_iff_eq, bne_iff_ne]
  omega

theorem daysIn_eq_daysInMonth (m y : Nat) (h1 : 1 ≤ m) (h2 : m ≤ 12) :
    daysIn m (y : Int) = daysInMonth y m := by
  unfold daysIn daysInMonth
  rw [isLeap_eq_leapYear]
  interval_cases m <;> simp

theorem timeParse_negative (n : Nat) : timeParse ('-' :: formatUint n) = none := by
  have : isDigit ('-' :: formatUint n) 0 = false := by simp [isDigit]
  simp [timeParse, this]

theorem timeParse_FormatInt_iff (last : Int) :
    (timeParse (FormatInt last)).isSome = true ↔ isDateStamp last := by
  unfold FormatInt
  by_cases hneg : last < 0
  · simp only [hneg, if_true, timeParse_negative]
    simp only [Option.isSome_none, Bool.false_eq_true, false_iff]
    intro h
    have := h.1
    omega
  · simp only [hneg, if_false]
    by_cases hlo : last.natAbs < 10 ^ 13
    · have hlen := formatUint_length_le 12 last.natAbs hlo
      constructor
      · intro h
        have := timeParse_digits_length _ (formatUint_digits _) h
        omega
      · intro h
        have := h.1
        norm_num at hlo
        omega
    · by_cases hhi : 10 ^ 14 ≤ last.natAbs
      · have hlen := formatUint_length_gt 14 last.natAbs hhi
        constructor
        · intro h
          have := timeParse_digits_length _ (formatUint_digits _) h
          omega
        · intro h
          have := h.2.1
          norm_num at hhi
          omega
      · have hn : last.toNat = last.natAbs := by omega
        have h13 : 10000000000000 ≤ last.natAbs := by norm_num at hlo; omega
        have h14 : last.natAbs < 100000000000000 := by norm_num at hhi; omega
        rw [formatUint_fourteen last.natAbs (by norm_num; omega) (by norm_num; omega)]
        rw [timeParse_fourteen]
        · unfold isDateStamp
          rw [hn]
          generalize last.natAbs = n at h13 h14 hn
          have hlast : last = (n : Int) := by omega
          simp (disch := omega) only [digitVal_digitChar]
          have hy : ((n / 10000000000000 * 10 + n / 1000000000000 % 10) * 10 +
              n / 100000000000 % 10) * 10 + n / 10000000000 % 10 = n / 10000000000 := by omega
          have hmo : n / 1000000000 % 10 * 10 + n / 100000000 % 10 = n / 100000000 % 100 := by
            omega
          have hd : n / 10000000 % 10 * 10 + n / 1000000 % 10 = n / 1000000 % 100 := by omega
          have hh : n / 100000 % 10 * 10 + n / 10000 % 10 = n / 10000 % 100 := by omega
          have hmi : n / 1000 % 10 * 10 + n / 100 % 10 = n / 100 % 100 := by omega
          have hs : n / 10 % 10 * 10 + n % 10 = n % 100 := by omega
          rw [hy, hmo, hd, hh, hmi, hs]
          constructor
          · rintro ⟨a1, a2, a3, a4, a5, a6, a7⟩
            rw [daysIn_eq_daysInMonth _ _ a1 a2] at a4
            exact ⟨by omega, by omega, a1, a2, a3, a4, by omega, by omega, by omega⟩
          · rintro ⟨-, -, a1, a2, a3, a4, a5, a6, a7⟩
            rw [← daysIn_eq_daysInMonth _ _ a1 a2] at a4
            exact ⟨a1, a2, a3, a4, by omega, by omega, by omega⟩
        all_goals exact digitChar_isDigit _ (by omega)
/-! ## Theorems: the version allocator -/

theorem formatUint_ne_nil (n : Nat) : formatUint n ≠ [] := by
  by_cases h : n < 10
  · rw [formatUint_lt n h]; simp
  · rw [formatUint_snoc n (by omega)]; simp

theorem foldl_formatUint (n : Nat) :
    (formatUint n).foldl (fun acc c => acc * 10 + (c.toNat - 48)) 0 = n := by
  induction n using Nat.strong_induction_on with
  | _ n ih =>
    by_cases h : n < 10
    · rw [formatUint_lt n h]
      simp [digitChar_toNat n h]
    · rw [formatUint_snoc n (by omega), List.foldl_append, ih (n / 10) (by omega)]
      simp [digitChar_toNat _ (Nat.mod_lt n (by decide : 0 < 10))]
      omega

theorem foldl_zeros (k : Nat) (s : List Char) :
    (List.replicate k '0' ++ s).foldl (fun acc c => acc * 10 + (c.toNat - 48)) 0 =
      s.foldl (fun acc c => acc * 10 + (c.toNat - 48)) 0 := by
  induction k with
  | zero => simp
  | succ k ih =>
    rw [List.replicate_succ, List.cons_append, List.foldl_cons]
    exact ih

theorem zeroPad_digits (w n : Nat) :
    ∀ c ∈ zeroPad w (formatUint n), 48 ≤ c.toNat ∧ c.toNat ≤ 57 := by
  intro c hc
  rcases List.mem_append.1 hc with h | h
  · rw [(List.mem_replicate.1 h).2]
    decide
  · exact formatUint_digits n c h

theorem zeroPad_ne_nil (w n : Nat) : zeroPad w (formatUint n) ≠ [] := by
  unfold zeroPad
  simp [formatUint_ne_nil]

theorem zeroPad_length (w : Nat) (s : List Char) :
    (zeroPad w s).length = max w s.length := by
  unfold zeroPad
  simp
  omega

theorem parseDigits_zeroPad (w n : Nat) : parseDigits (zeroPad w (formatUint n)) = some n := by
  unfold parseDigits
  have hall : (zeroPad w (formatUint n)).all
      (fun c => decide (48 ≤ c.toNat) && decide (c.toNat ≤ 57)) = true := by
    rw [List.all_eq_true]
    intro c hc
    have := zeroPad_digits w n c hc
    simp [this]
  rw [if_pos ⟨zeroPad_ne_nil w n, hall⟩]
  unfold zeroPad
  rw [foldl_zeros, foldl_formatUint]

theorem parseInteger_digits (l : List Char) (hne : l ≠ [])
    (hd : ∀ c ∈ l, 48 ≤ c.toNat ∧ c.toNat ≤ 57) :
    parseInteger l = Option.map (fun (n : Nat) => (n : Int)) (parseDigits l) := by
  cases l with
  | nil => exact absurd rfl hne
  | cons c t =>
    have hc := (hd c (List.mem_cons_self _ _)).1
    have h1 : c ≠ '-' := by rintro rfl; revert hc; decide
    have h2 : c ≠ '+' := by rintro rfl; revert hc; decide
    simp [parseInteger, h1, h2]

theorem parseInteger_Sprintf05v (i : Int) : parseInteger (Sprintf05v i) = some i := by
  unfold Sprintf05v
  by_cases h : i < 0
  · have hi : -((i.natAbs : Nat) : Int) = i := by omega
    simp only [h, if_true, parseInteger, parseDigits_zeroPad, Option.map_some', hi]
  · have hi : ((i.natAbs : Nat) : Int) = i := by omega
    simp only [h, if_false]
    rw [parseInteger_digits _ (zeroPad_ne_nil _ _) (zeroPad_digits _ _), parseDigits_zeroPad,
      Option.map_some', hi]

theorem Sprintf05v_length (i : Int) : 5 ≤ (Sprintf05v i).length := by
  unfold Sprintf05v
  split
  · simp [zeroPad_length]
  · simp [zeroPad_length]

theorem wrapInt64_of_inRange (i : Int) (h1 : -9223372036854775808 ≤ i)
    (h2 : i ≤ 9223372036854775807) : wrapInt64 i = i := by
  unfold wrapInt64
  norm_num
  omega

theorem nextVersion_of_stamp (now : Civil) (last : Int) (h : isDateStamp last) :
    nextVersion now last = String.mk (formatVersionDate now) := by
  have hp := (timeParse_FormatInt_iff last).2 h
  unfold nextVersion
  cases hq : timeParse (FormatInt last) with
  | none => rw [hq] at hp; simp at hp
  | some t => rfl

theorem nextVersion_of_not_stamp (now : Civil) (last : Int) (h : ¬ isDateStamp last) :
    nextVersion now last = String.mk (Sprintf05v (wrapInt64 (last + 1))) := by
  have hp := (timeParse_FormatInt_iff last).not.2 h
  unfold nextVersion
  cases hq : timeParse (FormatInt last) with
  | none => rfl
  | some t => rw [hq] at hp; simp at hp

theorem appendInt_length (x w : Nat) (h : x < 10 ^ w) (hw : 0 < w) :
    (appendInt (x : Int) w).length = w := by
  unfold appendInt
  have hneg : ¬ ((x : Int) < 0) := by omega
  simp only [hneg, if_false, List.nil_append, Int.natAbs_ofNat, zeroPad_length]
  obtain ⟨k, rfl⟩ : ∃ k, w = k + 1 := ⟨w - 1, by omega⟩
  have := formatUint_length_le k x h
  omega

/-- C5 (as stated, refuted): at the greatest `int64`, which is not a date-time
stamp, `last+1` wraps around, so `nextVersion` returns
`-9223372036854775808`, which is neither the padded rendering of `last+1` nor
parses to `last+1`; at a negative `last` the sign takes one of the five columns
and comes before the zeros (`-0004`, not `000-4`). -/
theorem nextVersion_sequence_counterexample :
    ¬ isDateStamp 9223372036854775807 ∧
    nextVersion ⟨2026, 11, 4, 13, 5, 9⟩ 9223372036854775807 = "-9223372036854775808" ∧
    ¬ (nextVersion ⟨2026, 11, 4, 13, 5, 9⟩ 9223372036854775807 =
          String.mk (leftPadZeros 5 (FormatInt (9223372036854775807 + 1))) ∧
        parseInteger (nextVersion ⟨2026, 11, 4, 13, 5, 9⟩ 9223372036854775807).toList =
          some (9223372036854775807 + 1)) ∧
    ¬ isDateStamp (-5) ∧
    nextVersion ⟨2026, 11, 4, 13, 5, 9⟩ (-5) = "-0004" ∧
    nextVersion ⟨2026, 11, 4, 13, 5, 9⟩ (-5) ≠ String.mk (leftPadZeros 5 (FormatInt (-5 + 1))) := by
  decide

/-- C5 (amended): for every `int64` value `last` below the greatest one whose
decimal rendering is not a date-time stamp, `nextVersion(last)` parses as an
integer to `last+1` and is at least 5 characters long; when `last+1` is not
negative it is the decimal rendering of `last+1` left-padded with zeros to 5
digits, and when `last+1` is negative it is a minus sign followed by the
magnitude left-padded with zeros to 4 digits. Every `last` from 0 to 99998 is
such a value and gets exactly 5 characters. -/
theorem nextVersion_sequence_numbered (now : Civil) (last : Int)
    (hlo : -9223372036854775808 ≤ last) (hhi : last < 9223372036854775807) :
    (¬ isDateStamp last →
      parseInteger (nextVersion now last).toList = some (last + 1) ∧
      5 ≤ (nextVersion now last).length ∧
      (0 ≤ last + 1 →
        nextVersion now last = String.mk (leftPadZeros 5 (FormatInt (last + 1)))) ∧
      (last + 1 < 0 →
        nextVersion now last =
          String.mk ('-' :: leftPadZeros 4 (formatUint (last + 1).natAbs)))) ∧
    (0 ≤ last → last ≤ 99998 →
      ¬ isDateStamp last ∧ (nextVersion now last).length = 5) := by
  have hwrap : wrapInt64 (last + 1) = last + 1 :=
    wrapInt64_of_inRange (last + 1) (by omega) (by omega)
  have hrun : ¬ isDateStamp last →
      nextVersion now last = String.mk (Sprintf05v (last + 1)) := by
    intro hns
    rw [nextVersion_of_not_stamp now last hns, hwrap]
  constructor
  · intro hns
    rw [hrun hns]
    refine ⟨parseInteger_Sprintf05v (last + 1), Sprintf05v_length (last + 1), ?_, ?_⟩
    · intro h
      have hneg : ¬ (last + 1 < 0) := by omega
      simp only [Sprintf05v, FormatInt, hneg, if_false]
      rfl
    · intro h
      simp only [Sprintf05v, h, if_true]
      rfl
  · intro h0 h1
    have hns : ¬ isDateStamp last := by
      intro h
      have := h.1
      omega
    refine ⟨hns, ?_⟩
    rw [hrun hns]
    have hneg : ¬ (last + 1 < 0) := by omega
    have hlen := formatUint_length_le 4 (last + 1).natAbs (by norm_num; omega)
    show (Sprintf05v (last + 1)).length = 5
    simp only [Sprintf05v, hneg, if_false, zeroPad_length]
    omega

/-- After the version 3 the next version is `00004`. -/
theorem nextVersion_sequence_numbered_witness :
    (-9223372036854775808 : Int) ≤ 3 ∧ (3 : Int) < 9223372036854775807 ∧
    ¬ isDateStamp 3 ∧
    nextVersion ⟨2026, 11, 4, 13, 5, 9⟩ 3 = "00004" ∧
    parseInteger (nextVersion ⟨2026, 11, 4, 13, 5, 9⟩ 3).toList = some (3 + 1) :=
  ⟨by decide, by decide, by decide, by decide,
    ((nextVersion_sequence_numbered ⟨2026, 11, 4, 13, 5, 9⟩ 3 (by decide) (by decide)).1
      (by decide)).1⟩

theorem foldl_value_acc (s : List Char) : ∀ acc : Nat,
    s.foldl (fun acc c => acc * 10 + (c.toNat - 48)) acc =
      acc * 10 ^ s.length + s.foldl (fun acc c => acc * 10 + (c.toNat - 48)) 0 := by
  induction s with
  | nil => intro acc; simp
  | cons c s ih =>
    intro acc
    rw [List.foldl_cons, List.foldl_cons, ih (acc * 10 + (c.toNat - 48)),
      ih (0 * 10 + (c.toNat - 48)), List.length_cons]
    ring

theorem foldl_value_append (a b : List Char) :
    (a ++ b).foldl (fun acc c => acc * 10 + (c.toNat - 48)) 0 =
      a.foldl (fun acc c => acc * 10 + (c.toNat - 48)) 0 * 10 ^ b.length +
        b.foldl (fun acc c => acc * 10 + (c.toNat - 48)) 0 := by
  rw [List.foldl_append, foldl_value_acc]

theorem appendInt_nat (x w : Nat) : appendInt (x : Int) w = zeroPad w (formatUint x) := by
  unfold appendInt
  have hneg : ¬ ((x : Int) < 0) := by omega
  simp only [hneg, if_false, List.nil_append, Int.natAbs_ofNat]

theorem appendInt_value (x w : Nat) :
    (appendInt (x : Int) w).foldl (fun acc c => acc * 10 + (c.toNat - 48)) 0 = x := by
  rw [appendInt_nat]
  unfold zeroPad
  rw [foldl_zeros, foldl_formatUint]

theorem appendInt_digits (x w : Nat) :
    ∀ c ∈ appendInt (x : Int) w, 48 ≤ c.toNat ∧ c.toNat ≤ 57 := by
  rw [appendInt_nat]
  exact zeroPad_digits w x

theorem parseDigits_formatVersionDate (y month day hour minute second : Nat)
    (hy : y ≤ 9999) (hmo : month ≤ 12) (hd : day ≤ 31) (hh : hour ≤ 23) (hmi : minute ≤ 59)
    (hs : second ≤ 59) :
    parseDigits (formatVersionDate ⟨(y : Int), month, day, hour, minute, second⟩) =
      some (stampValue ⟨(y : Int), month, day, hour, minute, second⟩) := by
  have l2 : (appendInt (month : Int) 2).length = 2 :=
    appendInt_length month 2 (by norm_num; omega) (by decide)
  have l3 : (appendInt (day : Int) 2).length = 2 :=
    appendInt_length day 2 (by norm_num; omega) (by decide)
  have l4 : (appendInt (hour : Int) 2).length = 2 :=
    appendInt_length hour 2 (by norm_num; omega) (by decide)
  have l5 : (appendInt (minute : Int) 2).length = 2 :=
    appendInt_length minute 2 (by norm_num; omega) (by decide)
  have l6 : (appendInt (second : Int) 2).length = 2 :=
    appendInt_length second 2 (by norm_num; omega) (by decide)
  have l1 : (appendInt (y : Int) 4).length = 4 :=
    appendInt_length y 4 (by norm_num; omega) (by decide)
  have hne : formatVersionDate ⟨(y : Int), month, day, hour, minute, second⟩ ≠ [] := by
    intro h
    have := congrArg List.length h
    simp [formatVersionDate, l1, l2, l3, l4, l5, l6] at this
  have hall : (formatVersionDate ⟨(y : Int), month, day, hour, minute, second⟩).all
      (fun c => decide (48 ≤ c.toNat) && decide (c.toNat ≤ 57)) = true := by
    rw [List.all_eq_true]
    intro c hc
    simp only [formatVersionDate, List.mem_append] at hc
    have : 48 ≤ c.toNat ∧ c.toNat ≤ 57 := by
      rcases hc with ((((h | h) | h) | h) | h) | h
      · exact appendInt_digits y 4 c h
      · exact appendInt_digits month 2 c h
      · exact appendInt_digits day 2 c h
      · exact appendInt_digits hour 2 c h
      · exact appendInt_digits minute 2 c h
      · exact appendInt_digits second 2 c h
    simp [this]
  unfold parseDigits
  rw [if_pos ⟨hne, hall⟩]
  simp only [formatVersionDate, foldl_value_append, appendInt_value, l2, l3, l4, l5, l6,
    stampValue, Int.toNat_ofNat]
  congr 1
  ring

/-- C6: with the wall clock as the explicit argument `now`, a version is a
date-time stamp (14 digits `YYYYMMDDHHMMSS` of a valid date and time of day)
exactly when `time.Parse` accepts its decimal rendering; for every such `last`,
`nextVersion(last)` is `now` formatted as `YYYYMMDDHHMMSS`, the same for any two
such versions, and for every other `last` the result is the same for any two
clocks. For a clock with a year from 0 to 9999 the formatted time has exactly
14 characters, and after a date-time stamp the result is 14 decimal digits that
spell year, month, day, hour, minute and second of the clock, in this order and
in widths 4, 2, 2, 2, 2, 2. -/
theorem nextVersion_date_stamped (now now1 : Civil) (last last1 : Int) :
    (isDateStamp last ↔ (timeParse (FormatInt last)).isSome = true) ∧
    (isDateStamp last → nextVersion now last = String.mk (formatVersionDate now)) ∧
    (isDateStamp last → isDateStamp last1 → nextVersion now last = nextVersion now last1) ∧
    (¬ isDateStamp last → nextVersion now last = nextVersion now1 last) ∧
    (0 ≤ now.year → now.year ≤ 9999 → now.month ≤ 12 → now.day ≤ 31 → now.hour ≤ 23 →
      now.minute ≤ 59 → now.second ≤ 59 → (formatVersionDate now).length = 14) ∧
    (isDateStamp last → 0 ≤ now.year → now.year ≤ 9999 → now.month ≤ 12 → now.day ≤ 31 →
      now.hour ≤ 23 → now.minute ≤ 59 → now.second ≤ 59 →
      (nextVersion now last).length = 14 ∧
      parseDigits (nextVersion now last).toList = some (stampValue now)) := by
  have hlen : 0 ≤ now.year → now.year ≤ 9999 → now.month ≤ 12 → now.day ≤ 31 → now.hour ≤ 23 →
      now.minute ≤ 59 → now.second ≤ 59 → (formatVersionDate now).length = 14 := by
    intro hy0 hy1 hmo hd hh hmi hs
    obtain ⟨year, month, day, hour, minute, second⟩ := now
    simp only at hy0 hy1 hmo hd hh hmi hs
    obtain ⟨y, rfl⟩ : ∃ y : Nat, year = (y : Int) := ⟨year.toNat, by omega⟩
    simp only [formatVersionDate, List.length_append]
    rw [appendInt_length y 4 (by norm_num; omega) (by decide),
      appendInt_length month 2 (by norm_num; omega) (by decide),
      appendInt_length day 2 (by norm_num; omega) (by decide),
      appendInt_length hour 2 (by norm_num; omega) (by decide),
      appendInt_length minute 2 (by norm_num; omega) (by decide),
      appendInt_length second 2 (by norm_num; omega) (by decide)]
  refine ⟨(timeParse_FormatInt_iff last).symm, nextVersion_of_stamp now last, ?_, ?_, hlen, ?_⟩
  · intro h h1
    rw [nextVersion_of_stamp now last h, nextVersion_of_stamp now last1 h1]
  · intro h
    rw [nextVersion_of_not_stamp now last h, nextVersion_of_not_stamp now1 last h]
  · intro hstamp hy0 hy1 hmo hd hh hmi hs
    rw [nextVersion_of_stamp now last hstamp]
    refine ⟨hlen hy0 hy1 hmo hd hh hmi hs, ?_⟩
    obtain ⟨year, month, day, hour, minute, second⟩ := now
    simp only at hy0 hy1 hmo hd hh hmi hs
    obtain ⟨y, rfl⟩ : ∃ y : Nat, year = (y : Int) := ⟨year.toNat, by omega⟩
    exact parseDigits_formatVersionDate y month day hour minute second (by omega) hmo hd hh
      hmi hs

/-- After the version `20230101000000` the next version is the clock reading,
here 2026-11-04 13:05:09, as the 14 digits `20261104130509`; after the version 7
it is the same whatever the clock says. -/
theorem nextVersion_date_stamped_witness :
    isDateStamp 20230101000000 ∧ ¬ isDateStamp 7 ∧
    nextVersion ⟨2026, 11, 4, 13, 5, 9⟩ 20230101000000 = "20261104130509" ∧
    stampValue ⟨2026, 11, 4, 13, 5, 9⟩ = 20261104130509 ∧
    nextVersion ⟨2026, 11, 4, 13, 5, 9⟩ 20230101000000 =
      String.mk (formatVersionDate ⟨2026, 11, 4, 13, 5, 9⟩) ∧
    nextVersion ⟨2026, 11, 4, 13, 5, 9⟩ 7 = nextVersion ⟨1999, 12, 31, 23, 59, 59⟩ 7 ∧
    (formatVersionDate ⟨2026, 11, 4, 13, 5, 9⟩).length = 14 ∧
    ((nextVersion ⟨2026, 11, 4, 13, 5, 9⟩ 20230101000000).length = 14 ∧
      parseDigits (nextVersion ⟨2026, 11, 4, 13, 5, 9⟩ 20230101000000).toList =
        some (stampValue ⟨2026, 11, 4, 13, 5, 9⟩)) :=
  ⟨by decide, by decide, by decide, by decide,
    (nextVersion_date_stamped ⟨2026, 11, 4, 13, 5, 9⟩ ⟨1999, 12, 31, 23, 59, 59⟩
      20230101000000 20230101000000).2.1 (by decide),
    (nextVersion_date_stamped ⟨2026, 11, 4, 13, 5, 9⟩ ⟨1999, 12, 31, 23, 59, 59⟩
      7 7).2.2.2.1 (by decide),
    (nextVersion_date_stamped ⟨2026, 11, 4, 13, 5, 9⟩ ⟨1999, 12, 31, 23, 59, 59⟩
      7 7).2.2.2.2.1 (by decide) (by decide) (by decide) (by decide) (by decide) (by decide)
      (by decide),
    (nextVersion_date_stamped ⟨2026, 11, 4, 13, 5, 9⟩ ⟨1999, 12, 31, 23, 59, 59⟩
      20230101000000 20230101000000).2.2.2.2.2 (by decide) (by decide) (by decide) (by decide)
      (by decide) (by decide) (by decide) (by decide)⟩

/-! ## Theorems: the result of Check -/

theorem FormatInt_ne_nil (i : Int) : FormatInt i ≠ [] := by
  unfold FormatInt
  split
  · simp
  · exact formatUint_ne_nil _

theorem FormatInt_no_space (i : Int) : ∀ c ∈ FormatInt i, c ≠ ' ' := by
  have hdig : ∀ c ∈ formatUint i.natAbs, c ≠ ' ' := by
    intro c hc
    have h := (formatUint_digits i.natAbs c hc).1
    rintro rfl
    revert h
    decide
  unfold FormatInt
  split
  · intro c hc
    rcases List.mem_cons.1 hc with h | h
    · rw [h]; decide
    · exact hdig c h
  · exact hdig

theorem parseInteger_FormatInt (i : Int) : parseInteger (FormatInt i) = some i := by
  have hpad : zeroPad 0 (formatUint i.natAbs) = formatUint i.natAbs := by simp [zeroPad]
  have hdigits : parseDigits (formatUint i.natAbs) = some i.natAbs := by
    have := parseDigits_zeroPad 0 i.natAbs
    rwa [hpad] at this
  unfold FormatInt
  by_cases h : i < 0
  · have hi : -((i.natAbs : Nat) : Int) = i := by omega
    simp only [h, if_true, parseInteger, hdigits, Option.map_some', hi]
  · have hi : ((i.natAbs : Nat) : Int) = i := by omega
    simp only [h, if_false]
    rw [parseInteger_digits _ (formatUint_ne_nil _) (formatUint_digits _), hdigits,
      Option.map_some', hi]

theorem splitOnSpace_word (w : List Char) (hw : ∀ c ∈ w, c ≠ ' ') : splitOnSpace w = [w] := by
  induction w with
  | nil => rfl
  | cons c w ih =>
    have hc : c ≠ ' ' := hw c (List.mem_cons_self _ _)
    have := ih fun x hx => hw x (List.mem_cons_of_mem _ hx)
    simp [splitOnSpace, hc, this]

theorem splitOnSpace_append (w : List Char) (hw : ∀ c ∈ w, c ≠ ' ') (rest : List Char) :
    splitOnSpace (w ++ ' ' :: rest) = w :: splitOnSpace rest := by
  induction w with
  | nil => simp [splitOnSpace]
  | cons c w ih =>
    have hc : c ≠ ' ' := hw c (List.mem_cons_self _ _)
    have := ih fun x hx => hw x (List.mem_cons_of_mem _ hx)
    simp [splitOnSpace, hc, this]

theorem splitOnSpace_joinSpace (ws : List (List Char)) (hne : ws ≠ [])
    (hws : ∀ w ∈ ws, ∀ c ∈ w, c ≠ ' ') : splitOnSpace (joinSpace ws) = ws := by
  induction ws with
  | nil => exact absurd rfl hne
  | cons w rest ih =>
    cases rest with
    | nil => exact splitOnSpace_word w (hws w (List.mem_cons_self _ _))
    | cons t rest =>
      have hrest := ih (by simp) fun x hx => hws x (List.mem_cons_of_mem _ hx)
      show splitOnSpace (w ++ ' ' :: joinSpace (t :: rest)) = w :: t :: rest
      rw [splitOnSpace_append w (hws w (List.mem_cons_self _ _)), hrest]

theorem parseIntegers_FormatInt (xs : List Int) :
    parseIntegers (xs.map FormatInt) = some xs := by
  induction xs with
  | nil => rfl
  | cons x xs ih => simp [parseIntegers, parseInteger_FormatInt, ih]

theorem joinSpace_ne_nil (ws : List (List Char)) (hne : ws ≠ []) (hws : ∀ w ∈ ws, w ≠ []) :
    joinSpace ws ≠ [] := by
  cases ws with
  | nil => exact absurd rfl hne
  | cons w rest =>
    have hw := hws w (List.mem_cons_self _ _)
    cases rest with
    | nil => exact hw
    | cons t rest =>
      show w ++ ' ' :: joinSpace (t :: rest) ≠ []
      simp

theorem parseVersionList_joinSpace (xs : List Int) :
    parseVersionList (joinSpace (xs.map FormatInt)) = some xs := by
  cases xs with
  | nil => rfl
  | cons x xs =>
    have hne : (x :: xs).map FormatInt ≠ [] := by simp
    have hbody : joinSpace ((x :: xs).map FormatInt) ≠ [] := by
      apply joinSpace_ne_nil _ hne
      intro w hw
      obtain ⟨i, -, rfl⟩ := List.mem_map.1 hw
      exact FormatInt_ne_nil i
    have hsplit : splitOnSpace (joinSpace ((x :: xs).map FormatInt)) =
        (x :: xs).map FormatInt := by
      apply splitOnSpace_joinSpace _ hne
      intro w hw
      obtain ⟨i, -, rfl⟩ := List.mem_map.1 hw
      exact FormatInt_no_space i
    unfold parseVersionList
    rw [if_neg hbody, hsplit, parseIntegers_FormatInt]

theorem skippedError_eq (skipped : List Int) :
    skippedError skipped = .errorString (String.mk
      ("migrations [".toList ++ joinSpace (skipped.map FormatInt) ++
        "] has been skipped".toList)) := by
  have h1 : "migrations [".toList = "migrations ".toList ++ ['['] := by decide
  have h2 : "] has been skipped".toList = ']' :: " has been skipped".toList := by decide
  rw [h1, h2]
  simp [skippedError, fmtInt64Slice]

/-- C3: for every strictly ascending migration sequence above `minVersion` and
every ascending applied list, with no collection, database or scan error,
`Check` returns nil exactly when every migration whose version is smaller than
the largest applied version is itself in the applied list; otherwise it returns
an error whose message is `migrations [`, a text, `] has been skipped`, and the
text between the brackets, read back as decimal integers separated by one
space, is exactly the list of all skipped versions in ascending order. -/
theorem Check_nil_iff_nothing_skipped (minVersion : Int) (ms : Migrations) (applied : List Int)
    (fuel : Nat) (ensured : Int) (hms : ms.Pairwise fun a b => a.Version < b.Version)
    (hmin : ∀ m ∈ ms, minVersion < m.Version)
    (happ : applied.Sorted (· ≤ ·)) (hfuel : ms.length < fuel) :
    (Check minVersion fuel (.ok ms) (.ok ensured) (.ok (applied.map .ok)) = some none ↔
      ∀ m ∈ ms, (m.Version : WithBot Int) < applied.maximum → m.Version ∈ applied) ∧
    (Check minVersion fuel (.ok ms) (.ok ensured) (.ok (applied.map .ok)) ≠ some none →
      ∃ body : List Char,
        Check minVersion fuel (.ok ms) (.ok ensured) (.ok (applied.map .ok)) =
          some (some (.errorString (String.mk
            ("migrations [".toList ++ body ++ "] has been skipped".toList)))) ∧
        parseVersionList body = some (skippedVersions ms applied) ∧
        skippedVersions ms applied ≠ []) := by
  obtain ⟨current, hrun⟩ := scanRows_skipped minVersion ms applied fuel hms hmin happ hfuel
  have hcheck : Check minVersion fuel (.ok ms) (.ok ensured) (.ok (applied.map .ok)) =
      if (skippedVersions ms applied).length > 0 then
        some (some (skippedError (skippedVersions ms applied))) else some none := by
    simp only [Check, hrun]
  rw [hcheck]
  have hnil : skippedVersions ms applied = [] ↔
      ∀ m ∈ ms, (m.Version : WithBot Int) < applied.maximum → m.Version ∈ applied := by
    rw [List.eq_nil_iff_forall_not_mem]
    constructor
    · intro h m hm hlt
      by_contra hcon
      exact h m.Version ((mem_skippedVersions ms applied _).2
        ⟨⟨m, hm, rfl⟩, hcon, (lt_maximum_iff _ _).1 hlt⟩)
    · intro h x hx
      obtain ⟨⟨m, hm, rfl⟩, h1, h2⟩ := (mem_skippedVersions ms applied x).1 hx
      exact h1 (h m hm ((lt_maximum_iff _ _).2 h2))
  rw [← hnil]
  cases hsk : skippedVersions ms applied with
  | nil => simp
  | cons a l =>
    refine ⟨by simp, fun _ => ⟨joinSpace ((a :: l).map FormatInt), ?_,
      parseVersionList_joinSpace (a :: l), by simp⟩⟩
    rw [← skippedError_eq]
    simp

/-- Sequence {1,2,3,4}: with applied {1,4} the error lists the two skipped
versions 2 and 3, with applied {1,2} the result is nil. -/
theorem Check_nil_iff_nothing_skipped_witness :
    Check 0 5 (.ok [⟨1, "a"⟩, ⟨2, "b"⟩, ⟨3, "c"⟩, ⟨4, "d"⟩]) (.ok 4) (.ok ([1, 4].map .ok)) =
      some (some (.errorString "migrations [2 3] has been skipped")) ∧
    skippedVersions [⟨1, "a"⟩, ⟨2, "b"⟩, ⟨3, "c"⟩, ⟨4, "d"⟩] [1, 4] = [2, 3] ∧
    parseVersionList "2 3".toList = some [2, 3] ∧
    skippedVersions [⟨1, "a"⟩, ⟨2, "b"⟩, ⟨3, "c"⟩, ⟨4, "d"⟩] [1, 2] = [] ∧
    (Check 0 5 (.ok [⟨1, "a"⟩, ⟨2, "b"⟩, ⟨3, "c"⟩, ⟨4, "d"⟩]) (.ok 2) (.ok ([1, 2].map .ok)) =
        some none ↔
      ∀ m ∈ ([⟨1, "a"⟩, ⟨2, "b"⟩, ⟨3, "c"⟩, ⟨4, "d"⟩] : Migrations),
        (m.Version : WithBot Int) < ([1, 2] : List Int).maximum →
          m.Version ∈ ([1, 2] : List Int)) ∧
    (∃ body : List Char,
      Check 0 5 (.ok [⟨1, "a"⟩, ⟨2, "b"⟩, ⟨3, "c"⟩, ⟨4, "d"⟩]) (.ok 4) (.ok ([1, 4].map .ok)) =
        some (some (.errorString (String.mk
          ("migrations [".toList ++ body ++ "] has been skipped".toList)))) ∧
      parseVersionList body =
        some (skippedVersions [⟨1, "a"⟩, ⟨2, "b"⟩, ⟨3, "c"⟩, ⟨4, "d"⟩] [1, 4]) ∧
      skippedVersions [⟨1, "a"⟩, ⟨2, "b"⟩, ⟨3, "c"⟩, ⟨4, "d"⟩] [1, 4] ≠ []) :=
  ⟨rfl, by decide, by decide, by decide,
    (Check_nil_iff_nothing_skipped 0 [⟨1, "a"⟩, ⟨2, "b"⟩, ⟨3, "c"⟩, ⟨4, "d"⟩] [1, 2] 5 2
      (by decide) (by decide) (by decide) (by decide)).1,
    (Check_nil_iff_nothing_skipped 0 [⟨1, "a"⟩, ⟨2, "b"⟩, ⟨3, "c"⟩, ⟨4, "d"⟩] [1, 4] 5 4
      (by decide) (by decide) (by decide) (by decide)).2 (by decide)⟩

end Goose
